import Mathlib

/-!
Shallow embedding of the bst-rs library (src/lib.rs): two binary search tree
engines, `RecursiveBST` and `IterativeBST`, over a shared node type, with
insert / remove / remove_min / remove_max, queries (contains, min, max,
height) and the four traversals in borrowing and consuming form.

Modelling conventions:
* `HeapNode<T> = Option<Box<Node<T>>>`; `Box` is just an owning pointer, so
  we collapse `Option<Box<Node<T>>>` into a single inductive `HeapNode T`
  with constructors `nil` (for `None`) and `node value left right`
  (for `Some(Box(Node { value, left, right }))`).
* `T : Ord` becomes `[LinearOrder T]`; Rust's `value.cmp(&other)` becomes
  `cmp value other` defined through `<` and `=` (a lawful total order).
* In-place mutation through `&mut` becomes explicit state passing: a Rust
  function mutating a `HeapNode<T>` slot and returning `R` becomes a Lean
  function returning the updated `HeapNode T` together with the `R` value.
* Rust's `Result<(), ()>` success signal becomes `Except Unit`, carrying the
  updated tree in the `ok` case and leaving it unchanged on `error`.
* A reachable `panic!` (`Option::unwrap` on `None`) is modelled by `Option`:
  `none` marks the panic.  Functions whose unwraps are guarded so they cannot
  panic are written in their guarded (total) form, with the guard noted.
* A loop that walks a `&mut` cursor down the ownership chain and finally
  writes through the cursor is rendered as structural recursion: one loop
  iteration = one recursive call into the chosen child, and the final write
  is rebuilt along the chain, which is exactly what the borrow splicing does.
-/

namespace BstRs

variable {T : Type} [LinearOrder T]

/-- Rust's `Ord::cmp` for a total order: `Less` when `a < b`, `Equal` when
`a = b`, `Greater` otherwise. -/
def cmp (a b : T) : Ordering :=
  if a < b then .lt else if a = b then .eq else .gt

/-- `HeapNode<T> = Option<Box<Node<T>>>` with
`struct Node<T> { value: T, left: HeapNode<T>, right: HeapNode<T> }`,
collapsed into one inductive (`Box` is identity for values). -/
inductive HeapNode (T : Type) : Type where
  | nil : HeapNode T
  | node (value : T) (left right : HeapNode T) : HeapNode T
deriving DecidableEq

namespace HeapNode

/-- Number of `Node`s reachable from this slot. -/
def count : HeapNode T → Nat
  | .nil => 0
  | .node _ l r => 1 + l.count + r.count

/-- In-order value sequence (left, node, right); proof-side handle for the
traversal code below. -/
def inorder : HeapNode T → List T
  | .nil => []
  | .node v l r => l.inorder ++ v :: r.inorder

/-- Pre-order value sequence (node, left, right). -/
def preorder : HeapNode T → List T
  | .nil => []
  | .node v l r => v :: (l.preorder ++ r.preorder)

/-- Post-order value sequence (left, right, node). -/
def postorder : HeapNode T → List T
  | .nil => []
  | .node v l r => l.postorder ++ r.postorder ++ [v]

/-- Number of nodes on a longest root-to-leaf path (0 for the empty tree);
the number of edges on that path is `depth - 1`. -/
def depth : HeapNode T → Nat
  | .nil => 0
  | .node _ l r => 1 + max l.depth r.depth

/-- Values at distance `n` from the root, left to right. -/
def levelList : HeapNode T → Nat → List T
  | .nil, _ => []
  | .node v _ _, 0 => [v]
  | .node _ l r, n + 1 => l.levelList n ++ r.levelList n

/-- A guarded push: the singleton queue/stack entry for a present node,
nothing for `None`.  Entries are the destructured node fields, matching the
`unwrap`s that the guards make safe. -/
def toForest : HeapNode T → List (T × HeapNode T × HeapNode T)
  | .nil => []
  | .node v l r => [(v, l, r)]

/-- Predicate holding at every node value of the tree. -/
def Forall (p : T → Prop) : HeapNode T → Prop
  | .nil => True
  | .node v l r => p v ∧ Forall p l ∧ Forall p r

end HeapNode

open HeapNode

instance HeapNode.decidableForall (p : T → Prop) [DecidablePred p] :
    (h : HeapNode T) → Decidable (HeapNode.Forall p h)
  | .nil => .isTrue trivial
  | .node v l r =>
    have dl := HeapNode.decidableForall p l
    have dr := HeapNode.decidableForall p r
    decidable_of_iff (p v ∧ HeapNode.Forall p l ∧ HeapNode.Forall p r) Iff.rfl

/-- The BST ordering invariant, in the spec's phrasing: at every node,
every value in the left subtree compares `Less` than the node's value and
every value in the right subtree compares `Greater`. -/
def BSTInv : HeapNode T → Prop
  | .nil => True
  | .node v l r =>
    HeapNode.Forall (fun x => cmp x v = .lt) l ∧
    HeapNode.Forall (fun x => cmp x v = .gt) r ∧
    BSTInv l ∧ BSTInv r

instance decidableBSTInv : (h : HeapNode T) → Decidable (BSTInv h)
  | .nil => .isTrue trivial
  | .node v l r =>
    have dl := decidableBSTInv l
    have dr := decidableBSTInv r
    decidable_of_iff
      (HeapNode.Forall (fun x => cmp x v = .lt) l ∧
        HeapNode.Forall (fun x => cmp x v = .gt) r ∧ BSTInv l ∧ BSTInv r)
      Iff.rfl

namespace Node

/-- Node::iterative_insert.  The source walks a `&mut` cursor down from the
root comparing at each node (`Equal` fails, `Less` goes left, `Greater` goes
right) and writes a fresh leaf into the empty slot it reaches; the write is
rebuilt along the descent path here. -/
def iterative_insert : HeapNode T → T → Except Unit (HeapNode T)
  | .nil, value => .ok (.node value .nil .nil)
  | .node nv nl nr, value =>
    match cmp value nv with
    | .eq => .error ()
    | .lt => (iterative_insert nl value).map fun nl2 => .node nv nl2 nr
    | .gt => (iterative_insert nr value).map fun nr2 => .node nv nl nr2

/-- Node::recursive_insert, a method on a `Node` (hence the three destructured
fields): `Equal` fails; on `Less`/`Greater` either create the missing child as
a fresh leaf or recurse into it. -/
def recursive_insert (sv : T) (sl sr : HeapNode T) (value : T) :
    Except Unit (HeapNode T) :=
  match cmp value sv with
  | .eq => .error ()
  | .lt =>
    match sl with
    | .nil => .ok (.node sv (.node value .nil .nil) sr)
    | .node lv ll lr =>
      (recursive_insert lv ll lr value).map fun sl2 => .node sv sl2 sr
  | .gt =>
    match sr with
    | .nil => .ok (.node sv sl (.node value .nil .nil))
    | .node rv rl rr =>
      (recursive_insert rv rl rr value).map fun sr2 => .node sv sl sr2
termination_by sl.count + sr.count
decreasing_by
  all_goals simp [HeapNode.count]
  all_goals omega

/-- Node::iterative_contains: the same walk, returning whether an `Equal`
value is found before an empty slot. -/
def iterative_contains : HeapNode T → T → Bool
  | .nil, _ => false
  | .node nv nl nr, value =>
    match cmp value nv with
    | .eq => true
    | .lt => iterative_contains nl value
    | .gt => iterative_contains nr value

/-- Node::recursive_contains, a method on a `Node`. -/
def recursive_contains (sv : T) (sl sr : HeapNode T) (value : T) : Bool :=
  match cmp value sv with
  | .eq => true
  | .lt =>
    match sl with
    | .nil => false
    | .node lv ll lr => recursive_contains lv ll lr value
  | .gt =>
    match sr with
    | .nil => false
    | .node rv rl rr => recursive_contains rv rl rr value
termination_by sl.count + sr.count
decreasing_by
  all_goals simp [HeapNode.count]
  all_goals omega

/-- Node::iterative_min: follow left links; value of the leftmost node,
`None` on an empty tree. -/
def iterative_min : HeapNode T → Option T
  | .nil => none
  | .node v l _ =>
    match l with
    | .nil => some v
    | .node .. => iterative_min l

/-- Node::recursive_min, a method on a `Node` (right child unused). -/
def recursive_min (sv : T) (sl : HeapNode T) : Option T :=
  match sl with
  | .nil => some sv
  | .node lv ll _ => recursive_min lv ll

/-- Node::iterative_max: follow right links. -/
def iterative_max : HeapNode T → Option T
  | .nil => none
  | .node v _ r =>
    match r with
    | .nil => some v
    | .node .. => iterative_max r

/-- Node::recursive_max, a method on a `Node` (left child unused). -/
def recursive_max (sv : T) (sr : HeapNode T) : Option T :=
  match sr with
  | .nil => some sv
  | .node rv _ rr => recursive_max rv rr

/-- The walk shared by both remove_min variants once the root is known to be
present: follow left links to the bottommost node, detach it, splice its
right child into its slot, and hand its value back up. -/
def removeMinGo (v : T) (l r : HeapNode T) : T × HeapNode T :=
  match l with
  | .nil => (v, r)
  | .node lv ll lr =>
    let p := removeMinGo lv ll lr
    (p.1, .node v p.2 r)

/-- Symmetric walk for remove_max: follow right links. -/
def removeMaxGo (v : T) (l r : HeapNode T) : T × HeapNode T :=
  match r with
  | .nil => (v, l)
  | .node rv rl rr =>
    let p := removeMaxGo rv rl rr
    (p.1, .node v l p.2)

/-- Node::iterative_remove_min: `None` if the slot is empty (the `is_some`
guard), otherwise walk the cursor to the leftmost node and splice. -/
def iterative_remove_min : HeapNode T → Option (T × HeapNode T)
  | .nil => none
  | .node v l r => some (removeMinGo v l r)

/-- Node::recursive_remove_min.  The source starts with
`root.as_ref().unwrap()`: an empty slot panics, modelled by `none`; a panic
in the recursive call propagates through `Option.map`. -/
def recursive_remove_min : HeapNode T → Option (T × HeapNode T)
  | .nil => none
  | .node v l r =>
    match l with
    | .node .. => (recursive_remove_min l).map fun p => (p.1, .node v p.2 r)
    | .nil => some (v, r)

/-- Node::iterative_remove_max. -/
def iterative_remove_max : HeapNode T → Option (T × HeapNode T)
  | .nil => none
  | .node v l r => some (removeMaxGo v l r)

/-- Node::recursive_remove_max; the unconditional unwrap on an empty slot is
the panic, modelled by `none`. -/
def recursive_remove_max : HeapNode T → Option (T × HeapNode T)
  | .nil => none
  | .node v l r =>
    match r with
    | .node .. => (recursive_remove_max r).map fun p => (p.1, .node v l p.2)
    | .nil => some (v, l)

/-- The `(left, right)` child-count match in the Equal arm of
Node::iterative_remove: clear the slot (no children), splice up the sole
child (one child), or overwrite the matched node's value with
`iterative_remove_min(&mut current.right).unwrap()` (two children; the
unwrap is safe because the right child was just matched as present, which
the `.node` pattern here encodes: `iterative_remove_min` on a present node
is `some (removeMinGo ..)` by definition). -/
def iterative_remove_matched (cl cr : HeapNode T) : HeapNode T :=
  match cl, cr with
  | .nil, .nil => .nil
  | .node .., .nil => cl
  | .nil, .node .. => cr
  | .node .., .node rv rl rr =>
    let p := removeMinGo rv rl rr
    .node p.1 cl p.2

/-- Node::iterative_remove: walk the cursor to the matching node (`Err` if an
empty slot is reached first), then resolve it by child count and return
`Ok`. -/
def iterative_remove : HeapNode T → T → Except Unit (HeapNode T)
  | .nil, _ => .error ()
  | .node cv cl cr, value =>
    match cmp value cv with
    | .lt => (iterative_remove cl value).map fun cl2 => .node cv cl2 cr
    | .gt => (iterative_remove cr value).map fun cr2 => .node cv cl cr2
    | .eq => .ok (iterative_remove_matched cl cr)

/-- The `(left, right)` child-count match in the Equal arm of
Node::recursive_remove; the two-children case calls
`recursive_remove_min(&mut node.right).unwrap()`, whose unwrap is safe for
the same reason (`recursive_remove_min` on a present node is
`some (removeMinGo ..)`, the lemma recursive_remove_min_node below). -/
def recursive_remove_matched (nl nr : HeapNode T) : HeapNode T :=
  match nl, nr with
  | .nil, .nil => .nil
  | .node .., .nil => nl
  | .nil, .node .. => nr
  | .node .., .node rv rl rr =>
    let p := removeMinGo rv rl rr
    .node p.1 nl p.2

/-- Node::recursive_remove: same walk and resolution, recursively. -/
def recursive_remove : HeapNode T → T → Except Unit (HeapNode T)
  | .nil, _ => .error ()
  | .node nv nl nr, value =>
    match cmp value nv with
    | .lt => (recursive_remove nl value).map fun nl2 => .node nv nl2 nr
    | .gt => (recursive_remove nr value).map fun nr2 => .node nv nl nr2
    | .eq => .ok (recursive_remove_matched nl nr)

/-- Node::recursive_height: `-1` for an empty slot, else
`1 + max(height(left), height(right))`. -/
def recursive_height : HeapNode T → Int
  | .nil => -1
  | .node _ l r => 1 + max (recursive_height l) (recursive_height r)

end Node

/-- Total size of a queue/stack of destructured node entries. -/
def forestSize {α : Type} (q : List (α × HeapNode α × HeapNode α)) : Nat :=
  (q.map fun e => 1 + e.2.1.count + e.2.2.count).sum

/-- The children generation of a BFS queue: for each entry, its present
children in left-to-right order (the guarded push_backs). -/
def forestChildren {α : Type} (q : List (α × HeapNode α × HeapNode α)) :
    List (α × HeapNode α × HeapNode α) :=
  (q.map fun e => e.2.1.toForest ++ e.2.2.toForest).flatten

namespace Node

/-- Node::iterative_height: breadth-first over a queue of node references,
`height` starting at `-1` and incremented once per fully processed level
(the inner loop snapshots the queue length).  The first pop unwraps its
entry, so the root must be present: both public callers guard on that, and
we take the destructured root fields.  Child pushes are guarded by
`is_some`, modelled by `toForest`. -/
def heightLoop : List (T × HeapNode T × HeapNode T) → Int → Int
  | [], height => height
  | e :: rest, height => heightLoop (forestChildren (e :: rest)) (height + 1)
termination_by q _ => forestSize q
decreasing_by
  have key : ∀ (q2 : List (T × HeapNode T × HeapNode T)),
      forestSize (forestChildren q2) + q2.length = forestSize q2 := by
    intro q2
    induction q2 with
    | nil => simp [forestSize, forestChildren]
    | cons e2 rest2 ih =>
      have h2 : ∀ (x : HeapNode T), forestSize x.toForest = x.count := by
        intro x
        cases x <;> simp [forestSize, HeapNode.toForest, HeapNode.count]
      have hc : forestChildren (e2 :: rest2) =
          (e2.2.1.toForest ++ e2.2.2.toForest) ++ forestChildren rest2 := by
        simp [forestChildren]
      have ha : ∀ (p q3 : List (T × HeapNode T × HeapNode T)),
          forestSize (p ++ q3) = forestSize p + forestSize q3 := by
        intro p q3
        simp [forestSize]
      have hq : forestSize (e2 :: rest2) =
          (1 + e2.2.1.count + e2.2.2.count) + forestSize rest2 := by
        simp [forestSize]
      rw [hc, ha, ha, h2, h2]
      simp only [List.length_cons]
      omega
  have h1 := key (e :: rest)
  simp only [List.length_cons] at h1
  omega

def iterative_height (v : T) (l r : HeapNode T) : Int :=
  heightLoop [(v, l, r)] (-1)

/-- Node::recursive_pre_order_vec: push the node's value, then recurse left,
then right, into the shared `elements` vector. -/
def recursive_pre_order_vec : HeapNode T → List T → List T
  | .nil, elements => elements
  | .node v l r, elements =>
    recursive_pre_order_vec r (recursive_pre_order_vec l (elements ++ [v]))

/-- Node::recursive_in_order_vec: recurse left, push the value, recurse
right. -/
def recursive_in_order_vec : HeapNode T → List T → List T
  | .nil, elements => elements
  | .node v l r, elements =>
    recursive_in_order_vec r (recursive_in_order_vec l elements ++ [v])

/-- Node::recursive_post_order_vec: recurse left, recurse right, push the
value. -/
def recursive_post_order_vec : HeapNode T → List T → List T
  | .nil, elements => elements
  | .node v l r, elements =>
    recursive_post_order_vec r (recursive_post_order_vec l elements) ++ [v]

/-- Node::recursive_current_level: push values at depth `level - 1`
(`level` compared against 1 with `cmp`). -/
def recursive_current_level : HeapNode T → List T → Int → List T
  | .nil, elements, _ => elements
  | .node v l r, elements, level =>
    match cmp level 1 with
    | .lt => elements
    | .eq => elements ++ [v]
    | .gt =>
      recursive_current_level r (recursive_current_level l elements (level - 1))
        (level - 1)

/-- Node::recursive_level_order_vec: `for i in 1..=height+1` push the nodes of
level `i` (1-based). -/
def recursive_level_order_vec (root : HeapNode T) (elements : List T) : List T :=
  (List.range (recursive_height root + 1).toNat).foldl
    (fun acc (i : Nat) => recursive_current_level root acc ((i : Int) + 1)) elements

/-- Node::iterative_pre_order_vec: explicit stack, initially holding the root
slot; pop, push the value, push right then left (guarded by `is_some`, hence
`toForest`); popping `None` (only possible for an empty root) ends the loop
with nothing emitted. -/
def iterPreOrderLoop : List (T × HeapNode T × HeapNode T) → List T → List T
  | [], elements => elements
  | (v, l, r) :: rest, elements =>
    iterPreOrderLoop (l.toForest ++ (r.toForest ++ rest)) (elements ++ [v])
termination_by stack _ => forestSize stack
decreasing_by
  have h2 : ∀ (x : HeapNode T), forestSize x.toForest = x.count := by
    intro x
    cases x <;> simp [forestSize, HeapNode.toForest, HeapNode.count]
  have ha : ∀ (p q3 : List (T × HeapNode T × HeapNode T)),
      forestSize (p ++ q3) = forestSize p + forestSize q3 := by
    intro p q3
    simp [forestSize]
  have hq : forestSize ((v, l, r) :: rest) =
      (1 + l.count + r.count) + forestSize rest := by
    simp [forestSize]
  rw [ha, ha, h2, h2]
  omega

def iterative_pre_order_vec (node : HeapNode T) : List T :=
  iterPreOrderLoop node.toForest []

/-- Node::iterative_in_order_vec: the standard push-left-spine loop.  The
stack holds node references, pushed while walking left (hence present:
entries are destructured); on a `None` cursor, pop, emit the value, continue
with the right child. -/
def iterInOrderLoop :
    HeapNode T → List (T × HeapNode T × HeapNode T) → List T → List T
  | .node v l r, stack, elements => iterInOrderLoop l ((v, l, r) :: stack) elements
  | .nil, (v, _, r) :: rest, elements => iterInOrderLoop r rest (elements ++ [v])
  | .nil, [], elements => elements
termination_by root stack _ =>
  2 * root.count + (stack.map fun e => 2 * e.2.2.count + 1).sum
decreasing_by
  all_goals simp [HeapNode.count]
  all_goals omega

def iterative_in_order_vec (root : HeapNode T) : List T :=
  iterInOrderLoop root [] []

/-- Node::iterative_post_order_vec, first loop: pop from stack one, push left
then right (guarded), and push the node onto stack two; the second loop then
pops stack two into `elements`, which reverses it. -/
def iterPostOrderLoop : List (T × HeapNode T × HeapNode T) → List T → List T
  | [], stackTwo => stackTwo
  | (v, l, r) :: rest, stackTwo =>
    iterPostOrderLoop (r.toForest ++ (l.toForest ++ rest)) (stackTwo ++ [v])
termination_by stack _ => forestSize stack
decreasing_by
  have h2 : ∀ (x : HeapNode T), forestSize x.toForest = x.count := by
    intro x
    cases x <;> simp [forestSize, HeapNode.toForest, HeapNode.count]
  have ha : ∀ (p q3 : List (T × HeapNode T × HeapNode T)),
      forestSize (p ++ q3) = forestSize p + forestSize q3 := by
    intro p q3
    simp [forestSize]
  have hq : forestSize ((v, l, r) :: rest) =
      (1 + l.count + r.count) + forestSize rest := by
    simp [forestSize]
  rw [ha, ha, h2, h2]
  omega

def iterative_post_order_vec (root : HeapNode T) : List T :=
  (iterPostOrderLoop root.toForest []).reverse

/-- Node::iterative_level_order_vec: a FIFO queue, pop front, emit, push the
present children at the back. -/
def iterLevelOrderLoop : List (T × HeapNode T × HeapNode T) → List T → List T
  | [], elements => elements
  | (v, l, r) :: rest, elements =>
    iterLevelOrderLoop (rest ++ (l.toForest ++ r.toForest)) (elements ++ [v])
termination_by queue _ => forestSize queue
decreasing_by
  have h2 : ∀ (x : HeapNode T), forestSize x.toForest = x.count := by
    intro x
    cases x <;> simp [forestSize, HeapNode.toForest, HeapNode.count]
  have ha : ∀ (p q3 : List (T × HeapNode T × HeapNode T)),
      forestSize (p ++ q3) = forestSize p + forestSize q3 := by
    intro p q3
    simp [forestSize]
  have hq : forestSize ((v, l, r) :: rest) =
      (1 + l.count + r.count) + forestSize rest := by
    simp [forestSize]
  rw [ha, ha, h2, h2]
  omega

def iterative_level_order_vec (root : HeapNode T) : List T :=
  iterLevelOrderLoop root.toForest []

/-- Node::iterative_consume_pre_order_vec: same stack protocol as the
borrowing pre-order, over owned nodes. -/
def iterConsumePreOrderLoop : List (T × HeapNode T × HeapNode T) → List T → List T
  | [], elements => elements
  | (v, l, r) :: rest, elements =>
    iterConsumePreOrderLoop (l.toForest ++ (r.toForest ++ rest)) (elements ++ [v])
termination_by stack _ => forestSize stack
decreasing_by
  have h2 : ∀ (x : HeapNode T), forestSize x.toForest = x.count := by
    intro x
    cases x <;> simp [forestSize, HeapNode.toForest, HeapNode.count]
  have ha : ∀ (p q3 : List (T × HeapNode T × HeapNode T)),
      forestSize (p ++ q3) = forestSize p + forestSize q3 := by
    intro p q3
    simp [forestSize]
  have hq : forestSize ((v, l, r) :: rest) =
      (1 + l.count + r.count) + forestSize rest := by
    simp [forestSize]
  rw [ha, ha, h2, h2]
  omega

def iterative_consume_pre_order_vec (node : HeapNode T) : List T :=
  iterConsumePreOrderLoop node.toForest []

/-- Termination weight for the consuming in-order loop: a node still holding
a left child is pushed back once more after its left child is detached, so
it weighs one extra step. -/
def consumeWeight {α : Type} : HeapNode α → Nat
  | .nil => 0
  | .node _ l r =>
    1 + (match l with | .nil => 0 | .node .. => 1) + consumeWeight l + consumeWeight r

/-- Node::iterative_consume_in_order_vec: a stack of owned `HeapNode`s
(`None` entries are pushed and skipped).  Pop a node; if it has a left
child, take it out and push first the node (left now empty) and then the
left child; otherwise emit the value and push the right child. -/
def iterConsumeInOrderLoop : List (HeapNode T) → List T → List T
  | [], elements => elements
  | .nil :: rest, elements => iterConsumeInOrderLoop rest elements
  | .node v (.node lv ll lr) r :: rest, elements =>
    iterConsumeInOrderLoop (.node lv ll lr :: .node v .nil r :: rest) elements
  | .node v .nil r :: rest, elements =>
    iterConsumeInOrderLoop (r :: rest) (elements ++ [v])
termination_by stack _ => (stack.map fun e => 2 * consumeWeight e + 1).sum
decreasing_by
  all_goals simp [consumeWeight]
  all_goals omega

def iterative_consume_in_order_vec (root : HeapNode T) : List T :=
  iterConsumeInOrderLoop [root] []

/-- Node::iterative_consume_post_order_vec: same two-stack protocol as the
borrowing post-order, over owned nodes. -/
def iterConsumePostOrderLoop : List (T × HeapNode T × HeapNode T) → List T → List T
  | [], stackTwo => stackTwo
  | (v, l, r) :: rest, stackTwo =>
    iterConsumePostOrderLoop (r.toForest ++ (l.toForest ++ rest)) (stackTwo ++ [v])
termination_by stack _ => forestSize stack
decreasing_by
  have h2 : ∀ (x : HeapNode T), forestSize x.toForest = x.count := by
    intro x
    cases x <;> simp [forestSize, HeapNode.toForest, HeapNode.count]
  have ha : ∀ (p q3 : List (T × HeapNode T × HeapNode T)),
      forestSize (p ++ q3) = forestSize p + forestSize q3 := by
    intro p q3
    simp [forestSize]
  have hq : forestSize ((v, l, r) :: rest) =
      (1 + l.count + r.count) + forestSize rest := by
    simp [forestSize]
  rw [ha, ha, h2, h2]
  omega

def iterative_consume_post_order_vec (root : HeapNode T) : List T :=
  (iterConsumePostOrderLoop root.toForest []).reverse

/-- Node::iterative_consume_level_order_vec: same queue protocol as the
borrowing level-order, over owned nodes. -/
def iterConsumeLevelOrderLoop : List (T × HeapNode T × HeapNode T) → List T → List T
  | [], elements => elements
  | (v, l, r) :: rest, elements =>
    iterConsumeLevelOrderLoop (rest ++ (l.toForest ++ r.toForest)) (elements ++ [v])
termination_by queue _ => forestSize queue
decreasing_by
  have h2 : ∀ (x : HeapNode T), forestSize x.toForest = x.count := by
    intro x
    cases x <;> simp [forestSize, HeapNode.toForest, HeapNode.count]
  have ha : ∀ (p q3 : List (T × HeapNode T × HeapNode T)),
      forestSize (p ++ q3) = forestSize p + forestSize q3 := by
    intro p q3
    simp [forestSize]
  have hq : forestSize ((v, l, r) :: rest) =
      (1 + l.count + r.count) + forestSize rest := by
    simp [forestSize]
  rw [ha, ha, h2, h2]
  omega

def iterative_consume_level_order_vec (root : HeapNode T) : List T :=
  iterConsumeLevelOrderLoop root.toForest []

/-- Node::recursive_consume_pre_order_vec: same recursion as the borrowing
recursive pre-order, over owned values. -/
def recursive_consume_pre_order_vec : HeapNode T → List T → List T
  | .nil, elements => elements
  | .node v l r, elements =>
    recursive_consume_pre_order_vec r (recursive_consume_pre_order_vec l (elements ++ [v]))

/-- Node::recursive_consume_in_order_vec. -/
def recursive_consume_in_order_vec : HeapNode T → List T → List T
  | .nil, elements => elements
  | .node v l r, elements =>
    recursive_consume_in_order_vec r (recursive_consume_in_order_vec l elements ++ [v])

/-- Node::recursive_consume_post_order_vec. -/
def recursive_consume_post_order_vec : HeapNode T → List T → List T
  | .nil, elements => elements
  | .node v l r, elements =>
    recursive_consume_post_order_vec r (recursive_consume_post_order_vec l elements) ++ [v]

/-- Node::write_level_into_vec: push values at distance `level` from the
root (value moved out by `ptr::read`; value-level effect is a push). -/
def write_level_into_vec : HeapNode T → List T → Int → List T
  | .nil, elements, _ => elements
  | .node v l r, elements, level =>
    if level = 0 then elements ++ [v]
    else
      write_level_into_vec r (write_level_into_vec l elements (level - 1)) (level - 1)

/-- Node::recursive_consume_level_order_vec: `for i in 0..height+1` write
level `i`; `dealloc_boxes` then frees the graph with no effect on
`elements`. -/
def recursive_consume_level_order_vec (root : HeapNode T) (elements : List T) : List T :=
  (List.range (recursive_height root + 1).toNat).foldl
    (fun acc (i : Nat) => write_level_into_vec root acc (i : Int)) elements

end Node

/-- `pub struct IterativeBST<T> { root: HeapNode<T>, size: usize }`. -/
structure IterativeBST (T : Type) : Type where
  root : HeapNode T
  size : Nat
deriving DecidableEq

/-- `pub struct RecursiveBST<T> { root: HeapNode<T>, size: usize }`. -/
structure RecursiveBST (T : Type) : Type where
  root : HeapNode T
  size : Nat
deriving DecidableEq

namespace IterativeBST

/-- IterativeBST::new. -/
def new : IterativeBST T := { root := .nil, size := 0 }

/-- BinarySearchTree::insert for IterativeBST: bump `size` iff the node-level
insert signalled `Ok`; the trait method itself returns `()` to the caller. -/
def insert [LinearOrder T] (t : IterativeBST T) (value : T) : IterativeBST T :=
  match Node.iterative_insert t.root value with
  | .ok root2 => { root := root2, size := t.size + 1 }
  | .error _ => t

/-- BinarySearchTree::contains for IterativeBST. -/
def contains [LinearOrder T] (t : IterativeBST T) (value : T) : Bool :=
  Node.iterative_contains t.root value

/-- BinarySearchTree::remove for IterativeBST: decrement `size` iff the
node-level remove signalled `Ok`. -/
def remove [LinearOrder T] (t : IterativeBST T) (value : T) : IterativeBST T :=
  match Node.iterative_remove t.root value with
  | .ok root2 => { root := root2, size := t.size - 1 }
  | .error _ => t

/-- BinarySearchTree::height for IterativeBST:
`self.root.as_ref().map(|_| Node::iterative_height(&self.root))`. -/
def height (t : IterativeBST T) : Option Int :=
  match t.root with
  | .nil => none
  | .node v l r => some (Node.iterative_height v l r)

/-- BinarySearchTree::min for IterativeBST. -/
def min (t : IterativeBST T) : Option T :=
  Node.iterative_min t.root

/-- BinarySearchTree::max for IterativeBST. -/
def max (t : IterativeBST T) : Option T :=
  Node.iterative_max t.root

/-- BinarySearchTree::remove_min for IterativeBST: returns the removed value
(`None` on an empty tree) and decrements `size` iff one was removed. -/
def remove_min (t : IterativeBST T) : Option T × IterativeBST T :=
  match Node.iterative_remove_min t.root with
  | some p => (some p.1, { root := p.2, size := t.size - 1 })
  | none => (none, t)

/-- BinarySearchTree::remove_max for IterativeBST. -/
def remove_max (t : IterativeBST T) : Option T × IterativeBST T :=
  match Node.iterative_remove_max t.root with
  | some p => (some p.1, { root := p.2, size := t.size - 1 })
  | none => (none, t)

/-- BinarySearchTree::pre_order_vec for IterativeBST. -/
def pre_order_vec (t : IterativeBST T) : List T :=
  Node.iterative_pre_order_vec t.root

/-- BinarySearchTree::in_order_vec for IterativeBST. -/
def in_order_vec (t : IterativeBST T) : List T :=
  Node.iterative_in_order_vec t.root

/-- BinarySearchTree::asc_order_vec for IterativeBST, defined as
`self.in_order_vec()`. -/
def asc_order_vec (t : IterativeBST T) : List T :=
  t.in_order_vec

/-- BinarySearchTree::post_order_vec for IterativeBST. -/
def post_order_vec (t : IterativeBST T) : List T :=
  Node.iterative_post_order_vec t.root

/-- BinarySearchTree::level_order_vec for IterativeBST. -/
def level_order_vec (t : IterativeBST T) : List T :=
  Node.iterative_level_order_vec t.root

/-- BinarySearchTree::into_pre_order_iter for IterativeBST (the list the
consuming iterator yields). -/
def into_pre_order_iter (t : IterativeBST T) : List T :=
  Node.iterative_consume_pre_order_vec t.root

/-- BinarySearchTree::into_in_order_iter for IterativeBST. -/
def into_in_order_iter (t : IterativeBST T) : List T :=
  Node.iterative_consume_in_order_vec t.root

/-- BinarySearchTree::into_post_order_iter for IterativeBST. -/
def into_post_order_iter (t : IterativeBST T) : List T :=
  Node.iterative_consume_post_order_vec t.root

/-- BinarySearchTree::into_level_order_iter for IterativeBST. -/
def into_level_order_iter (t : IterativeBST T) : List T :=
  Node.iterative_consume_level_order_vec t.root

/-- `impl PartialEq for IterativeBST`: equality of ascending-order vectors. -/
def peq (a b : IterativeBST T) : Prop :=
  a.asc_order_vec = b.asc_order_vec

/-- `From<Vec<T>> for IterativeBST`: insert each value in input order. -/
def from_vec [LinearOrder T] (vec : List T) : IterativeBST T :=
  vec.foldl insert new

end IterativeBST

namespace RecursiveBST

/-- RecursiveBST::new. -/
def new : RecursiveBST T := { root := .nil, size := 0 }

/-- BinarySearchTree::insert for RecursiveBST: an empty root takes a fresh
leaf directly; otherwise delegate to Node::recursive_insert on the root
node; bump `size` on success. -/
def insert [LinearOrder T] (t : RecursiveBST T) (value : T) : RecursiveBST T :=
  match t.root with
  | .nil => { root := .node value .nil .nil, size := t.size + 1 }
  | .node v l r =>
    match Node.recursive_insert v l r value with
    | .ok root2 => { root := root2, size := t.size + 1 }
    | .error _ => t

/-- BinarySearchTree::contains for RecursiveBST. -/
def contains [LinearOrder T] (t : RecursiveBST T) (value : T) : Bool :=
  match t.root with
  | .nil => false
  | .node v l r => Node.recursive_contains v l r value

/-- BinarySearchTree::remove for RecursiveBST. -/
def remove [LinearOrder T] (t : RecursiveBST T) (value : T) : RecursiveBST T :=
  match Node.recursive_remove t.root value with
  | .ok root2 => { root := root2, size := t.size - 1 }
  | .error _ => t

/-- BinarySearchTree::height for RecursiveBST. -/
def height (t : RecursiveBST T) : Option Int :=
  match t.root with
  | .nil => none
  | .node .. => some (Node.recursive_height t.root)

/-- BinarySearchTree::min for RecursiveBST. -/
def min (t : RecursiveBST T) : Option T :=
  match t.root with
  | .nil => none
  | .node v l _ => Node.recursive_min v l

/-- BinarySearchTree::max for RecursiveBST. -/
def max (t : RecursiveBST T) : Option T :=
  match t.root with
  | .nil => none
  | .node v _ r => Node.recursive_max v r

/-- BinarySearchTree::remove_min for RecursiveBST: the source guards
`match self.root { None => None, Some(_) => recursive_remove_min(root) }`,
which coincides with calling the node function directly since it yields
`none` exactly on the `None` root it would otherwise panic on. -/
def remove_min (t : RecursiveBST T) : Option T × RecursiveBST T :=
  match Node.recursive_remove_min t.root with
  | some p => (some p.1, { root := p.2, size := t.size - 1 })
  | none => (none, t)

/-- BinarySearchTree::remove_max for RecursiveBST. -/
def remove_max (t : RecursiveBST T) : Option T × RecursiveBST T :=
  match Node.recursive_remove_max t.root with
  | some p => (some p.1, { root := p.2, size := t.size - 1 })
  | none => (none, t)

/-- BinarySearchTree::pre_order_vec for RecursiveBST. -/
def pre_order_vec (t : RecursiveBST T) : List T :=
  Node.recursive_pre_order_vec t.root []

/-- BinarySearchTree::in_order_vec for RecursiveBST. -/
def in_order_vec (t : RecursiveBST T) : List T :=
  Node.recursive_in_order_vec t.root []

/-- BinarySearchTree::asc_order_vec for RecursiveBST (same body as
in_order_vec in the source). -/
def asc_order_vec (t : RecursiveBST T) : List T :=
  Node.recursive_in_order_vec t.root []

/-- BinarySearchTree::post_order_vec for RecursiveBST. -/
def post_order_vec (t : RecursiveBST T) : List T :=
  Node.recursive_post_order_vec t.root []

/-- BinarySearchTree::level_order_vec for RecursiveBST. -/
def level_order_vec (t : RecursiveBST T) : List T :=
  Node.recursive_level_order_vec t.root []

/-- BinarySearchTree::into_pre_order_iter for RecursiveBST. -/
def into_pre_order_iter (t : RecursiveBST T) : List T :=
  Node.recursive_consume_pre_order_vec t.root []

/-- BinarySearchTree::into_in_order_iter for RecursiveBST. -/
def into_in_order_iter (t : RecursiveBST T) : List T :=
  Node.recursive_consume_in_order_vec t.root []

/-- BinarySearchTree::into_post_order_iter for RecursiveBST. -/
def into_post_order_iter (t : RecursiveBST T) : List T :=
  Node.recursive_consume_post_order_vec t.root []

/-- BinarySearchTree::into_level_order_iter for RecursiveBST. -/
def into_level_order_iter (t : RecursiveBST T) : List T :=
  Node.recursive_consume_level_order_vec t.root []

/-- `impl PartialEq for RecursiveBST`: equality of ascending-order vectors. -/
def peq (a b : RecursiveBST T) : Prop :=
  a.asc_order_vec = b.asc_order_vec

/-- `From<Vec<T>> for RecursiveBST`. -/
def from_vec [LinearOrder T] (vec : List T) : RecursiveBST T :=
  vec.foldl insert new

end RecursiveBST

/-- One public mutating operation on a tree. -/
inductive Op (T : Type) : Type where
  | insert (value : T)
  | remove (value : T)
  | removeMin
  | removeMax

/-- Apply one public operation to an IterativeBST. -/
def IterativeBST.applyOp [LinearOrder T] (t : IterativeBST T) : Op T → IterativeBST T
  | .insert v => t.insert v
  | .remove v => t.remove v
  | .removeMin => t.remove_min.2
  | .removeMax => t.remove_max.2

/-- The IterativeBST reached from the empty tree by a sequence of public
operations. -/
def IterativeBST.ofOps [LinearOrder T] (ops : List (Op T)) : IterativeBST T :=
  ops.foldl IterativeBST.applyOp IterativeBST.new

/-- Apply one public operation to a RecursiveBST. -/
def RecursiveBST.applyOp [LinearOrder T] (t : RecursiveBST T) : Op T → RecursiveBST T
  | .insert v => t.insert v
  | .remove v => t.remove v
  | .removeMin => t.remove_min.2
  | .removeMax => t.remove_max.2

/-- The RecursiveBST reached from the empty tree by a sequence of public
operations. -/
def RecursiveBST.ofOps [LinearOrder T] (ops : List (Op T)) : RecursiveBST T :=
  ops.foldl RecursiveBST.applyOp RecursiveBST.new

/-- The tree a stack/queue entry stands for. -/
def entryTree {α : Type} (e : α × HeapNode α × HeapNode α) : HeapNode α :=
  .node e.1 e.2.1 e.2.2

/-- Reversed post-order, the order in which the first post-order loop pushes
nodes onto the second stack. -/
def rpo : HeapNode T → List T
  | .nil => []
  | .node v l r => v :: (rpo r ++ rpo l)

/-- Values of a BFS queue at generation `n`. -/
def forestLevel {α : Type} (q : List (α × HeapNode α × HeapNode α)) :
    Nat → List α
  | 0 => q.map fun e => e.1
  | n + 1 => forestLevel (forestChildren q) n

/-- Number of nonempty generations of a BFS queue. -/
def forestHeight {α : Type} : List (α × HeapNode α × HeapNode α) → Nat
  | [] => 0
  | e :: rest => 1 + forestHeight (forestChildren (e :: rest))
termination_by q => forestSize q
decreasing_by
  have key : ∀ (q2 : List (α × HeapNode α × HeapNode α)),
      forestSize (forestChildren q2) + q2.length = forestSize q2 := by
    intro q2
    induction q2 with
    | nil => simp [forestSize, forestChildren]
    | cons e2 rest2 ih =>
      have h2 : ∀ (x : HeapNode α), forestSize x.toForest = x.count := by
        intro x
        cases x <;> simp [forestSize, HeapNode.toForest, HeapNode.count]
      have hc : forestChildren (e2 :: rest2) =
          (e2.2.1.toForest ++ e2.2.2.toForest) ++ forestChildren rest2 := by
        simp [forestChildren]
      have ha : ∀ (p q3 : List (α × HeapNode α × HeapNode α)),
          forestSize (p ++ q3) = forestSize p + forestSize q3 := by
        intro p q3
        simp [forestSize]
      have hq : forestSize (e2 :: rest2) =
          (1 + e2.2.1.count + e2.2.2.count) + forestSize rest2 := by
        simp [forestSize]
      rw [hc, ha, ha, h2, h2]
      simp only [List.length_cons]
      omega
  have h1 := key (e :: rest)
  simp only [List.length_cons] at h1
  omega

/-- Largest entry depth of a BFS queue. -/
def forestMaxDepth {α : Type} (q : List (α × HeapNode α × HeapNode α)) : Nat :=
  (q.map fun e => (entryTree e).depth).foldr max 0

/-- The level-order value sequence of a tree: level 0, then level 1, and so
on through the last nonempty level. -/
def HeapNode.levelOrder (h : HeapNode T) : List T :=
  ((List.range h.depth).map h.levelList).flatten

/-- The same tree state seen through the other engine's struct (both structs
hold exactly a root slot and a size). -/
def RecursiveBST.toIterative (t : RecursiveBST T) : IterativeBST T :=
  { root := t.root, size := t.size }

/-- Tree-level invariant of an IterativeBST: the node graph satisfies the
BST ordering invariant and `size` counts the reachable nodes. -/
def IterativeBST.Inv (t : IterativeBST T) : Prop :=
  BSTInv t.root ∧ t.size = t.root.count

/-- The value the public insert hands back to its caller: the trait method is
`fn insert(&mut self, value: T)` — no data is returned — so the returned
value is the Unit value, next to the updated tree. -/
def IterativeBST.insertReturn [LinearOrder T] (t : IterativeBST T) (value : T) :
    Unit × IterativeBST T :=
  ((), t.insert value)

theorem cmp_eq_lt {a b : T} : cmp a b = .lt ↔ a < b := by
  unfold cmp
  split
  next h => simp [h]
  next h =>
    split
    next => simp [h]
    next => simp [h]

theorem cmp_eq_eq {a b : T} : cmp a b = .eq ↔ a = b := by
  unfold cmp
  split
  next h => simp [ne_of_lt h]
  next h =>
    split
    next h2 => simp [h2]
    next h2 => simp [h2]

theorem cmp_eq_gt {a b : T} : cmp a b = .gt ↔ b < a := by
  unfold cmp
  split
  next h => simp [lt_asymm h]
  next h =>
    split
    next h2 => simp [h2, lt_irrefl]
    next h2 => simp [lt_of_le_of_ne (le_of_not_lt h) (Ne.symm h2)]

theorem forestSize_toForest {α : Type} (h : HeapNode α) :
    forestSize h.toForest = h.count := by
  cases h <;> simp [forestSize, HeapNode.toForest, HeapNode.count]

theorem forestSize_append {α : Type} (q p : List (α × HeapNode α × HeapNode α)) :
    forestSize (q ++ p) = forestSize q + forestSize p := by
  simp [forestSize]

theorem forestSize_cons {α : Type} (e : α × HeapNode α × HeapNode α)
    (q : List (α × HeapNode α × HeapNode α)) :
    forestSize (e :: q) = (1 + e.2.1.count + e.2.2.count) + forestSize q := by
  simp [forestSize]

theorem forestChildren_cons {α : Type} (e : α × HeapNode α × HeapNode α)
    (q : List (α × HeapNode α × HeapNode α)) :
    forestChildren (e :: q) =
      (e.2.1.toForest ++ e.2.2.toForest) ++ forestChildren q := by
  simp [forestChildren]

theorem forestSize_children {α : Type} (q : List (α × HeapNode α × HeapNode α)) :
    forestSize (forestChildren q) + q.length = forestSize q := by
  induction q with
  | nil => simp [forestSize, forestChildren]
  | cons e rest ih =>
    rw [forestChildren_cons, forestSize_append, forestSize_append,
      forestSize_toForest, forestSize_toForest, forestSize_cons]
    simp only [List.length_cons]
    omega


/-! ### Traversal correctness: the accumulating recursive traversals -/

theorem recursive_pre_order_vec_eq (h : HeapNode T) (acc : List T) :
    Node.recursive_pre_order_vec h acc = acc ++ h.preorder := by
  induction h generalizing acc with
  | nil => simp [Node.recursive_pre_order_vec, HeapNode.preorder]
  | node v l r ihl ihr =>
    simp [Node.recursive_pre_order_vec, HeapNode.preorder, ihl, ihr]

theorem recursive_in_order_vec_eq (h : HeapNode T) (acc : List T) :
    Node.recursive_in_order_vec h acc = acc ++ h.inorder := by
  induction h generalizing acc with
  | nil => simp [Node.recursive_in_order_vec, HeapNode.inorder]
  | node v l r ihl ihr =>
    simp [Node.recursive_in_order_vec, HeapNode.inorder, ihl, ihr]

theorem recursive_post_order_vec_eq (h : HeapNode T) (acc : List T) :
    Node.recursive_post_order_vec h acc = acc ++ h.postorder := by
  induction h generalizing acc with
  | nil => simp [Node.recursive_post_order_vec, HeapNode.postorder]
  | node v l r ihl ihr =>
    simp [Node.recursive_post_order_vec, HeapNode.postorder, ihl, ihr]

theorem recursive_consume_pre_order_vec_eq (h : HeapNode T) (acc : List T) :
    Node.recursive_consume_pre_order_vec h acc = acc ++ h.preorder := by
  induction h generalizing acc with
  | nil => simp [Node.recursive_consume_pre_order_vec, HeapNode.preorder]
  | node v l r ihl ihr =>
    simp [Node.recursive_consume_pre_order_vec, HeapNode.preorder, ihl, ihr]

theorem recursive_consume_in_order_vec_eq (h : HeapNode T) (acc : List T) :
    Node.recursive_consume_in_order_vec h acc = acc ++ h.inorder := by
  induction h generalizing acc with
  | nil => simp [Node.recursive_consume_in_order_vec, HeapNode.inorder]
  | node v l r ihl ihr =>
    simp [Node.recursive_consume_in_order_vec, HeapNode.inorder, ihl, ihr]

theorem recursive_consume_post_order_vec_eq (h : HeapNode T) (acc : List T) :
    Node.recursive_consume_post_order_vec h acc = acc ++ h.postorder := by
  induction h generalizing acc with
  | nil => simp [Node.recursive_consume_post_order_vec, HeapNode.postorder]
  | node v l r ihl ihr =>
    simp [Node.recursive_consume_post_order_vec, HeapNode.postorder, ihl, ihr]

/-! ### Traversal correctness: the stack-based iterative traversals -/



theorem toForest_preorder (h : HeapNode T) :
    ((h.toForest.map fun e => (entryTree e).preorder)).flatten = h.preorder := by
  cases h <;> simp [HeapNode.toForest, entryTree, HeapNode.preorder]

theorem iterPreOrderLoop_eq (stack : List (T × HeapNode T × HeapNode T))
    (acc : List T) :
    Node.iterPreOrderLoop stack acc =
      acc ++ (stack.map fun e => (entryTree e).preorder).flatten := by
  induction stack, acc using Node.iterPreOrderLoop.induct with
  | case1 acc => simp [Node.iterPreOrderLoop]
  | case2 v l r rest acc ih =>
    rw [Node.iterPreOrderLoop, ih, List.map_append, List.map_append,
      List.flatten_append, List.flatten_append, toForest_preorder, toForest_preorder]
    simp [entryTree, HeapNode.preorder]

theorem iterative_pre_order_vec_eq (h : HeapNode T) :
    Node.iterative_pre_order_vec h = h.preorder := by
  rw [Node.iterative_pre_order_vec, iterPreOrderLoop_eq]
  simp [toForest_preorder]

theorem iterInOrderLoop_eq (root : HeapNode T)
    (stack : List (T × HeapNode T × HeapNode T)) (acc : List T) :
    Node.iterInOrderLoop root stack acc =
      acc ++ root.inorder ++ (stack.map fun e => e.1 :: e.2.2.inorder).flatten := by
  induction root, stack, acc using Node.iterInOrderLoop.induct with
  | case1 v l r stack acc ih =>
    rw [Node.iterInOrderLoop, ih]
    simp [HeapNode.inorder]
  | case2 v l r rest acc ih =>
    rw [Node.iterInOrderLoop, ih]
    simp [HeapNode.inorder]
  | case3 acc => simp [Node.iterInOrderLoop, HeapNode.inorder]

theorem iterative_in_order_vec_eq (h : HeapNode T) :
    Node.iterative_in_order_vec h = h.inorder := by
  rw [Node.iterative_in_order_vec, iterInOrderLoop_eq]
  simp



theorem rpo_eq_reverse_postorder (h : HeapNode T) :
    rpo h = h.postorder.reverse := by
  induction h with
  | nil => simp [rpo, HeapNode.postorder]
  | node v l r ihl ihr => simp [rpo, HeapNode.postorder, ihl, ihr]

theorem toForest_rpo (h : HeapNode T) :
    ((h.toForest.map fun e => rpo (entryTree e))).flatten = rpo h := by
  cases h <;> simp [HeapNode.toForest, entryTree, rpo]

theorem iterPostOrderLoop_eq (stack : List (T × HeapNode T × HeapNode T))
    (acc : List T) :
    Node.iterPostOrderLoop stack acc =
      acc ++ (stack.map fun e => rpo (entryTree e)).flatten := by
  induction stack, acc using Node.iterPostOrderLoop.induct with
  | case1 acc => simp [Node.iterPostOrderLoop]
  | case2 v l r rest acc ih =>
    rw [Node.iterPostOrderLoop, ih, List.map_append, List.map_append,
      List.flatten_append, List.flatten_append, toForest_rpo, toForest_rpo]
    simp [entryTree, rpo]

theorem iterative_post_order_vec_eq (h : HeapNode T) :
    Node.iterative_post_order_vec h = h.postorder := by
  rw [Node.iterative_post_order_vec, iterPostOrderLoop_eq, List.nil_append,
    toForest_rpo, rpo_eq_reverse_postorder, List.reverse_reverse]

theorem iterConsumePreOrderLoop_eq (stack : List (T × HeapNode T × HeapNode T))
    (acc : List T) :
    Node.iterConsumePreOrderLoop stack acc =
      acc ++ (stack.map fun e => (entryTree e).preorder).flatten := by
  induction stack, acc using Node.iterConsumePreOrderLoop.induct with
  | case1 acc => simp [Node.iterConsumePreOrderLoop]
  | case2 v l r rest acc ih =>
    rw [Node.iterConsumePreOrderLoop, ih, List.map_append, List.map_append,
      List.flatten_append, List.flatten_append, toForest_preorder, toForest_preorder]
    simp [entryTree, HeapNode.preorder]

theorem iterative_consume_pre_order_vec_eq (h : HeapNode T) :
    Node.iterative_consume_pre_order_vec h = h.preorder := by
  rw [Node.iterative_consume_pre_order_vec, iterConsumePreOrderLoop_eq]
  simp [toForest_preorder]

theorem iterConsumeInOrderLoop_eq (stack : List (HeapNode T)) (acc : List T) :
    Node.iterConsumeInOrderLoop stack acc =
      acc ++ (stack.map HeapNode.inorder).flatten := by
  induction stack, acc using Node.iterConsumeInOrderLoop.induct with
  | case1 acc => simp [Node.iterConsumeInOrderLoop]
  | case2 rest acc ih =>
    rw [Node.iterConsumeInOrderLoop, ih]
    simp [HeapNode.inorder]
  | case3 v lv ll lr r rest acc ih =>
    rw [Node.iterConsumeInOrderLoop, ih]
    simp [HeapNode.inorder]
  | case4 v r rest acc ih =>
    rw [Node.iterConsumeInOrderLoop, ih]
    simp [HeapNode.inorder]

theorem iterative_consume_in_order_vec_eq (h : HeapNode T) :
    Node.iterative_consume_in_order_vec h = h.inorder := by
  rw [Node.iterative_consume_in_order_vec, iterConsumeInOrderLoop_eq]
  simp

theorem iterConsumePostOrderLoop_eq (stack : List (T × HeapNode T × HeapNode T))
    (acc : List T) :
    Node.iterConsumePostOrderLoop stack acc =
      acc ++ (stack.map fun e => rpo (entryTree e)).flatten := by
  induction stack, acc using Node.iterConsumePostOrderLoop.induct with
  | case1 acc => simp [Node.iterConsumePostOrderLoop]
  | case2 v l r rest acc ih =>
    rw [Node.iterConsumePostOrderLoop, ih, List.map_append, List.map_append,
      List.flatten_append, List.flatten_append, toForest_rpo, toForest_rpo]
    simp [entryTree, rpo]

theorem iterative_consume_post_order_vec_eq (h : HeapNode T) :
    Node.iterative_consume_post_order_vec h = h.postorder := by
  rw [Node.iterative_consume_post_order_vec, iterConsumePostOrderLoop_eq,
    List.nil_append, toForest_rpo, rpo_eq_reverse_postorder, List.reverse_reverse]

/-! ### Level-order: breadth-first queues against the level-indexed spec -/









theorem forestChildren_append {α : Type} (q p : List (α × HeapNode α × HeapNode α)) :
    forestChildren (q ++ p) = forestChildren q ++ forestChildren p := by
  simp [forestChildren]

theorem forestChildren_nil {α : Type} :
    forestChildren ([] : List (α × HeapNode α × HeapNode α)) = [] := by
  simp [forestChildren]

theorem forestLevel_append {α : Type} (q p : List (α × HeapNode α × HeapNode α))
    (n : Nat) : forestLevel (q ++ p) n = forestLevel q n ++ forestLevel p n := by
  induction n generalizing q p with
  | zero => simp [forestLevel]
  | succ n ih => simp [forestLevel, forestChildren_append, ih]

theorem forestLevel_nil {α : Type} (n : Nat) :
    forestLevel ([] : List (α × HeapNode α × HeapNode α)) n = [] := by
  induction n with
  | zero => simp [forestLevel]
  | succ n ih => simp [forestLevel, forestChildren_nil, ih]

theorem forestLevel_toForest (h : HeapNode T) (n : Nat) :
    forestLevel h.toForest n = h.levelList n := by
  induction n generalizing h with
  | zero => cases h <;> simp [forestLevel, HeapNode.toForest, HeapNode.levelList]
  | succ n ih =>
    cases h with
    | nil =>
      simp [HeapNode.toForest, forestLevel, forestChildren_nil, forestLevel_nil,
        HeapNode.levelList]
    | node v l r =>
      have hc : forestChildren (HeapNode.node v l r).toForest =
          l.toForest ++ r.toForest := by
        simp [HeapNode.toForest, forestChildren]
      rw [forestLevel, hc, forestLevel_append, ih l, ih r, HeapNode.levelList]

theorem forestMaxDepth_append {α : Type} (q p : List (α × HeapNode α × HeapNode α)) :
    forestMaxDepth (q ++ p) = max (forestMaxDepth q) (forestMaxDepth p) := by
  induction q with
  | nil => simp [forestMaxDepth]
  | cons e rest ih =>
    simp only [forestMaxDepth, List.map_cons, List.foldr_cons, List.map_append,
      List.foldr_append] at ih ⊢
    rw [ih]
    exact (Nat.max_assoc _ _ _).symm

theorem forestMaxDepth_toForest {α : Type} (h : HeapNode α) :
    forestMaxDepth h.toForest = h.depth := by
  cases h <;> simp [forestMaxDepth, HeapNode.toForest, entryTree, HeapNode.depth]

theorem forestMaxDepth_children {α : Type}
    (q : List (α × HeapNode α × HeapNode α)) :
    forestMaxDepth (forestChildren q) =
      (q.map fun e => max e.2.1.depth e.2.2.depth).foldr max 0 := by
  induction q with
  | nil => simp [forestMaxDepth, forestChildren_nil]
  | cons e rest ih =>
    rw [forestChildren_cons, forestMaxDepth_append, forestMaxDepth_append, ih,
      forestMaxDepth_toForest, forestMaxDepth_toForest]
    simp [Nat.max_assoc]

theorem foldr_max_map_succ (l : List Nat) (hne : l ≠ []) :
    (l.map fun m => 1 + m).foldr max 0 = 1 + l.foldr max 0 := by
  induction l with
  | nil => cases hne rfl
  | cons x xs ih =>
    cases xs with
    | nil => simp
    | cons y ys =>
      simp only [List.map_cons, List.foldr_cons] at ih ⊢
      rw [ih (by simp)]
      exact max_add_add_left 1 x _

theorem forestMaxDepth_cons_succ {α : Type} (e : α × HeapNode α × HeapNode α)
    (q : List (α × HeapNode α × HeapNode α)) :
    forestMaxDepth (e :: q) = 1 + forestMaxDepth (forestChildren (e :: q)) := by
  rw [forestMaxDepth_children]
  have hmap : (e :: q).map (fun y => (entryTree y).depth) =
      ((e :: q).map fun y => max y.2.1.depth y.2.2.depth).map fun m => 1 + m := by
    simp only [List.map_map]
    apply List.map_congr_left
    intro y _
    rfl
  rw [forestMaxDepth, hmap, foldr_max_map_succ _ (by simp)]

theorem forestHeight_eq_maxDepth {α : Type}
    (q : List (α × HeapNode α × HeapNode α)) :
    forestHeight q = forestMaxDepth q := by
  induction q using forestHeight.induct with
  | case1 => simp [forestHeight, forestMaxDepth]
  | case2 e rest ih => rw [forestHeight, ih, forestMaxDepth_cons_succ]

/-- One full generation of the BFS loop: processing the entries of `cur`
appends their values and queues their children behind `next`. -/
theorem iterLevelOrderLoop_generation (cur next : List (T × HeapNode T × HeapNode T))
    (acc : List T) :
    Node.iterLevelOrderLoop (cur ++ next) acc =
      Node.iterLevelOrderLoop (next ++ forestChildren cur)
        (acc ++ cur.map fun e => e.1) := by
  induction cur generalizing next acc with
  | nil => simp [forestChildren_nil]
  | cons e rest ih =>
    obtain ⟨v, l, r⟩ := e
    rw [List.cons_append, Node.iterLevelOrderLoop, List.append_assoc]
    rw [show rest ++ (next ++ (l.toForest ++ r.toForest)) =
      rest ++ (next ++ (l.toForest ++ r.toForest)) from rfl]
    rw [ih (next ++ (l.toForest ++ r.toForest)) (acc ++ [v])]
    have hfc : forestChildren ((v, l, r) :: rest) =
        (l.toForest ++ r.toForest) ++ forestChildren rest := by
      rw [forestChildren_cons]
    rw [hfc]
    simp

theorem iterLevelOrderLoop_eq (q : List (T × HeapNode T × HeapNode T))
    (acc : List T) :
    Node.iterLevelOrderLoop q acc =
      acc ++ ((List.range (forestHeight q)).map (forestLevel q)).flatten := by
  induction q using forestHeight.induct generalizing acc with
  | case1 => simp [Node.iterLevelOrderLoop, forestHeight]
  | case2 e rest ih =>
    have hstep := iterLevelOrderLoop_generation (e :: rest) [] acc
    simp only [List.append_nil, List.nil_append] at hstep
    rw [hstep, ih]
    rw [forestHeight]
    rw [Nat.add_comm 1 (forestHeight (forestChildren (e :: rest))),
      List.range_succ_eq_map]
    simp only [List.map_cons, List.flatten_cons, List.map_map]
    rw [show forestLevel (e :: rest) 0 = (e :: rest).map fun x => x.1 from rfl]
    have hcomp : (forestLevel (e :: rest) ∘ fun i => i + 1) =
        forestLevel (forestChildren (e :: rest)) := by
      funext i
      show forestLevel (e :: rest) (i + 1) = _
      rw [forestLevel]
    rw [hcomp]
    simp

theorem iterative_level_order_vec_eq (h : HeapNode T) :
    Node.iterative_level_order_vec h = h.levelOrder := by
  rw [Node.iterative_level_order_vec, iterLevelOrderLoop_eq, List.nil_append,
    HeapNode.levelOrder, forestHeight_eq_maxDepth, forestMaxDepth_toForest]
  congr 1
  apply List.map_congr_left
  intro i _
  exact forestLevel_toForest h i

/-- The consuming level-order loop is the same queue protocol. -/
theorem iterConsumeLevelOrderLoop_eq_loop (q : List (T × HeapNode T × HeapNode T))
    (acc : List T) :
    Node.iterConsumeLevelOrderLoop q acc = Node.iterLevelOrderLoop q acc := by
  induction q, acc using Node.iterConsumeLevelOrderLoop.induct with
  | case1 acc => simp [Node.iterConsumeLevelOrderLoop, Node.iterLevelOrderLoop]
  | case2 v l r rest acc ih =>
    rw [Node.iterConsumeLevelOrderLoop, Node.iterLevelOrderLoop, ih]

theorem iterative_consume_level_order_vec_eq (h : HeapNode T) :
    Node.iterative_consume_level_order_vec h = h.levelOrder := by
  rw [Node.iterative_consume_level_order_vec, iterConsumeLevelOrderLoop_eq_loop]
  exact iterative_level_order_vec_eq h

/-! ### Height: the BFS level counter against the recursive definition -/

theorem recursive_height_eq_depth (h : HeapNode T) :
    Node.recursive_height h = (h.depth : Int) - 1 := by
  induction h with
  | nil => simp [Node.recursive_height, HeapNode.depth]
  | node v l r ihl ihr =>
    rw [Node.recursive_height, ihl, ihr, HeapNode.depth]
    rw [max_sub_sub_right ((l.depth : Int)) ((r.depth : Int)) 1]
    push_cast
    omega

theorem heightLoop_eq (q : List (T × HeapNode T × HeapNode T)) (n : Int) :
    Node.heightLoop q n = n + (forestHeight q : Int) := by
  induction q using forestHeight.induct generalizing n with
  | case1 => simp [Node.heightLoop, forestHeight]
  | case2 e rest ih =>
    rw [Node.heightLoop, ih, forestHeight]
    push_cast
    ring

theorem iterative_height_eq (v : T) (l r : HeapNode T) :
    Node.iterative_height v l r = Node.recursive_height (.node v l r) := by
  rw [Node.iterative_height, heightLoop_eq, recursive_height_eq_depth]
  rw [show [(v, l, r)] = (HeapNode.node v l r).toForest from rfl,
    forestHeight_eq_maxDepth, forestMaxDepth_toForest]
  omega

/-! ### Level-order: the two recursive (level-by-level) renderings -/

theorem recursive_current_level_eq (h : HeapNode T) (acc : List T) (i : Int)
    (hi : 1 ≤ i) :
    Node.recursive_current_level h acc i = acc ++ h.levelList (i - 1).toNat := by
  induction h generalizing acc i with
  | nil => simp [Node.recursive_current_level, HeapNode.levelList]
  | node v l r ihl ihr =>
    rw [Node.recursive_current_level]
    rcases eq_or_lt_of_le hi with heq | hgt
    · rw [show cmp i 1 = .eq from cmp_eq_eq.mpr heq.symm]
      rw [show ((i - 1).toNat = 0) from by omega]
      simp [HeapNode.levelList]
    · rw [show cmp i 1 = .gt from cmp_eq_gt.mpr hgt]
      rw [ihl _ _ (by omega), ihr _ _ (by omega)]
      rw [show ((i - 1).toNat = (i - 1 - 1).toNat + 1) from by omega]
      simp [HeapNode.levelList]

theorem recursive_level_order_foldl (root : HeapNode T) (n : Nat) (acc : List T) :
    (List.range n).foldl
        (fun a (i : Nat) => Node.recursive_current_level root a ((i : Int) + 1)) acc =
      acc ++ ((List.range n).map root.levelList).flatten := by
  induction n with
  | zero => simp
  | succ n ih =>
    rw [List.range_succ, List.foldl_append, ih]
    simp only [List.foldl_cons, List.foldl_nil]
    rw [recursive_current_level_eq _ _ _ (by omega)]
    simp

theorem recursive_level_order_vec_eq (h : HeapNode T) (acc : List T) :
    Node.recursive_level_order_vec h acc = acc ++ h.levelOrder := by
  rw [Node.recursive_level_order_vec, recursive_level_order_foldl,
    HeapNode.levelOrder]
  rw [show (Node.recursive_height h + 1).toNat = h.depth from by
    rw [recursive_height_eq_depth]; omega]

theorem write_level_into_vec_eq (h : HeapNode T) (acc : List T) (i : Int)
    (hi : 0 ≤ i) :
    Node.write_level_into_vec h acc i = acc ++ h.levelList i.toNat := by
  induction h generalizing acc i with
  | nil => simp [Node.write_level_into_vec, HeapNode.levelList]
  | node v l r ihl ihr =>
    rw [Node.write_level_into_vec]
    rcases eq_or_lt_of_le hi with heq | hgt
    · rw [if_pos heq.symm]
      rw [show i.toNat = 0 from by omega]
      simp [HeapNode.levelList]
    · rw [if_neg (by omega)]
      rw [ihl _ _ (by omega), ihr _ _ (by omega)]
      rw [show i.toNat = (i - 1).toNat + 1 from by omega]
      simp [HeapNode.levelList]

theorem recursive_consume_level_order_foldl (root : HeapNode T) (n : Nat)
    (acc : List T) :
    (List.range n).foldl
        (fun a (i : Nat) => Node.write_level_into_vec root a (i : Int)) acc =
      acc ++ ((List.range n).map root.levelList).flatten := by
  induction n with
  | zero => simp
  | succ n ih =>
    rw [List.range_succ, List.foldl_append, ih]
    simp only [List.foldl_cons, List.foldl_nil]
    rw [write_level_into_vec_eq _ _ _ (by omega)]
    simp

theorem recursive_consume_level_order_vec_eq (h : HeapNode T) (acc : List T) :
    Node.recursive_consume_level_order_vec h acc = acc ++ h.levelOrder := by
  rw [Node.recursive_consume_level_order_vec, recursive_consume_level_order_foldl,
    HeapNode.levelOrder]
  rw [show (Node.recursive_height h + 1).toNat = h.depth from by
    rw [recursive_height_eq_depth]; omega]

/-! ### The BST invariant as strict sortedness of the in-order sequence -/

theorem count_eq_length_inorder (h : HeapNode T) : h.count = h.inorder.length := by
  induction h with
  | nil => simp [HeapNode.count, HeapNode.inorder]
  | node v l r ihl ihr =>
    simp [HeapNode.count, HeapNode.inorder, ihl, ihr]
    omega

theorem forall_iff_mem_inorder (p : T → Prop) (h : HeapNode T) :
    HeapNode.Forall p h ↔ ∀ x ∈ h.inorder, p x := by
  induction h with
  | nil => simp [HeapNode.Forall, HeapNode.inorder]
  | node v l r ihl ihr =>
    simp only [HeapNode.Forall, HeapNode.inorder, List.mem_append, List.mem_cons,
      ihl, ihr]
    constructor
    · rintro ⟨hv, hl, hr⟩ x (hx | rfl | hx)
      · exact hl x hx
      · exact hv
      · exact hr x hx
    · intro hall
      exact ⟨hall v (Or.inr (Or.inl rfl)),
        fun x hx => hall x (Or.inl hx),
        fun x hx => hall x (Or.inr (Or.inr hx))⟩

theorem bstInv_iff_sorted (h : HeapNode T) :
    BSTInv h ↔ h.inorder.Sorted (· < ·) := by
  induction h with
  | nil => simp [BSTInv, HeapNode.inorder, List.Sorted]
  | node v l r ihl ihr =>
    simp only [BSTInv, HeapNode.inorder, ihl, ihr,
      forall_iff_mem_inorder, cmp_eq_lt, cmp_eq_gt]
    show _ ↔ List.Pairwise (· < ·) (l.inorder ++ v :: r.inorder)
    rw [List.pairwise_append, List.pairwise_cons]
    simp only [List.mem_cons]
    constructor
    · rintro ⟨hl, hr, sl, sr⟩
      refine ⟨sl, ⟨hr, sr⟩, ?_⟩
      rintro x hx y (rfl | hy)
      · exact hl x hx
      · exact lt_trans (hl x hx) (hr y hy)
    · rintro ⟨sl, ⟨hr, sr⟩, hcross⟩
      exact ⟨fun x hx => hcross x hx v (Or.inl rfl), hr, sl, sr⟩

/-- The no-duplicates half of the invariant: a strictly sorted list has
pairwise distinct entries. -/
theorem sorted_lt_pairwise_ne (l : List T) (hs : l.Sorted (· < ·)) :
    l.Pairwise (fun a b => cmp a b ≠ .eq) := by
  exact hs.imp fun hab => by simp [cmp_eq_eq, ne_of_lt hab]

/-! ### Insert: success signal, effect on the value sequence, invariant -/

theorem exceptMap_eq_error {α β : Type} (f : α → β) (e : Except Unit α) :
    (e.map f = .error ()) ↔ e = .error () := by
  cases e <;> simp [Except.map]

theorem exceptMap_eq_ok {α β : Type} (f : α → β) (e : Except Unit α) (b : β) :
    (e.map f = .ok b) ↔ ∃ a, e = .ok a ∧ f a = b := by
  cases e <;> simp [Except.map]

theorem iterative_insert_error_iff (h : HeapNode T) (v : T) :
    Node.iterative_insert h v = .error () ↔ Node.iterative_contains h v = true := by
  induction h with
  | nil => simp [Node.iterative_insert, Node.iterative_contains]
  | node nv nl nr ihl ihr =>
    rw [Node.iterative_insert, Node.iterative_contains]
    cases hc : cmp v nv <;> simp [exceptMap_eq_error, ihl, ihr]

theorem iterative_insert_ok_perm (h : HeapNode T) (v : T) (h2 : HeapNode T)
    (hok : Node.iterative_insert h v = .ok h2) :
    h2.inorder.Perm (v :: h.inorder) := by
  induction h generalizing h2 with
  | nil =>
    simp only [Node.iterative_insert, Except.ok.injEq] at hok
    subst hok
    simp [HeapNode.inorder]
  | node nv nl nr ihl ihr =>
    rw [Node.iterative_insert] at hok
    cases hc : cmp v nv
    · rw [hc] at hok
      rw [exceptMap_eq_ok] at hok
      obtain ⟨nl2, hnl2, rfl⟩ := hok
      have hp := ihl nl2 hnl2
      show (nl2.inorder ++ nv :: nr.inorder).Perm (v :: (nl.inorder ++ nv :: nr.inorder))
      exact hp.append_right (nv :: nr.inorder)
    · rw [hc] at hok
      simp at hok
    · rw [hc] at hok
      rw [exceptMap_eq_ok] at hok
      obtain ⟨nr2, hnr2, rfl⟩ := hok
      have hp := ihr nr2 hnr2
      show (nl.inorder ++ nv :: nr2.inorder).Perm (v :: (nl.inorder ++ nv :: nr.inorder))
      refine (List.Perm.append_left nl.inorder (hp.cons nv)).trans ?_
      have e1 : nl.inorder ++ nv :: v :: nr.inorder
          = (nl.inorder ++ [nv]) ++ v :: nr.inorder := by simp
      have e2 : v :: (nl.inorder ++ nv :: nr.inorder)
          = v :: ((nl.inorder ++ [nv]) ++ nr.inorder) := by simp
      rw [e1, e2]
      exact List.perm_middle

theorem insert_Forall (p : T → Prop) (h : HeapNode T) (v : T) (h2 : HeapNode T)
    (hf : HeapNode.Forall p h) (hv : p v)
    (hok : Node.iterative_insert h v = .ok h2) : HeapNode.Forall p h2 := by
  rw [forall_iff_mem_inorder] at hf ⊢
  intro x hx
  have hmem2 := (iterative_insert_ok_perm h v h2 hok).mem_iff.mp hx
  rcases List.mem_cons.mp hmem2 with rfl | hmem
  · exact hv
  · exact hf x hmem

theorem insert_BSTInv (h : HeapNode T) (v : T) (h2 : HeapNode T)
    (hinv : BSTInv h) (hok : Node.iterative_insert h v = .ok h2) : BSTInv h2 := by
  induction h generalizing h2 with
  | nil =>
    simp only [Node.iterative_insert, Except.ok.injEq] at hok
    subst hok
    simp [BSTInv, HeapNode.Forall]
  | node nv nl nr ihl ihr =>
    obtain ⟨hfl, hfr, hil, hir⟩ := hinv
    rw [Node.iterative_insert] at hok
    cases hc : cmp v nv
    · rw [hc] at hok
      rw [exceptMap_eq_ok] at hok
      obtain ⟨nl2, hnl2, rfl⟩ := hok
      exact ⟨insert_Forall _ nl v nl2 hfl hc hnl2, hfr,
        ihl nl2 hil hnl2, hir⟩
    · rw [hc] at hok
      simp at hok
    · rw [hc] at hok
      rw [exceptMap_eq_ok] at hok
      obtain ⟨nr2, hnr2, rfl⟩ := hok
      exact ⟨hfl, insert_Forall _ nr v nr2 hfr hc hnr2,
        hil, ihr nr2 hir hnr2⟩

/-! ### Search correctness -/

theorem iterative_contains_iff_mem (h : HeapNode T) (v : T) (hinv : BSTInv h) :
    Node.iterative_contains h v = true ↔ v ∈ h.inorder := by
  induction h with
  | nil => simp [Node.iterative_contains, HeapNode.inorder]
  | node nv nl nr ihl ihr =>
    obtain ⟨hfl, hfr, hil, hir⟩ := hinv
    rw [forall_iff_mem_inorder] at hfl hfr
    rw [Node.iterative_contains]
    cases hc : cmp v nv
    · have hvlt := cmp_eq_lt.mp hc
      simp only [HeapNode.inorder, List.mem_append, List.mem_cons, ihl hil]
      constructor
      · exact fun hm => Or.inl hm
      · rintro (hm | rfl | hm)
        · exact hm
        · exact absurd hvlt (lt_irrefl v)
        · exact absurd (lt_trans (cmp_eq_gt.mp (hfr v hm)) hvlt) (lt_irrefl nv)
    · have := cmp_eq_eq.mp hc
      subst this
      simp [HeapNode.inorder]
    · have hvgt := cmp_eq_gt.mp hc
      simp only [HeapNode.inorder, List.mem_append, List.mem_cons, ihr hir]
      constructor
      · exact fun hm => Or.inr (Or.inr hm)
      · rintro (hm | rfl | hm)
        · exact absurd (lt_trans hvgt (cmp_eq_lt.mp (hfl v hm))) (lt_irrefl nv)
        · exact absurd hvgt (lt_irrefl v)
        · exact hm

/-! ### remove_min / remove_max -/

theorem removeMinGo_spec (v : T) (l r : HeapNode T) :
    (Node.removeMinGo v l r).1 :: (Node.removeMinGo v l r).2.inorder =
      (HeapNode.node v l r).inorder := by
  induction l generalizing v r with
  | nil => simp [Node.removeMinGo, HeapNode.inorder]
  | node lv ll lr ihl ihr =>
    rw [Node.removeMinGo]
    have := ihl lv lr
    show (Node.removeMinGo lv ll lr).1 ::
        ((Node.removeMinGo lv ll lr).2.inorder ++ v :: r.inorder) = _
    rw [show (HeapNode.node v (HeapNode.node lv ll lr) r).inorder =
      (HeapNode.node lv ll lr).inorder ++ v :: r.inorder from rfl]
    rw [← ihl lv lr]
    simp

theorem removeMaxGo_spec (v : T) (l r : HeapNode T) :
    (Node.removeMaxGo v l r).2.inorder ++ [(Node.removeMaxGo v l r).1] =
      (HeapNode.node v l r).inorder := by
  induction r generalizing v l with
  | nil => simp [Node.removeMaxGo, HeapNode.inorder]
  | node rv rl rr ihl ihr =>
    rw [Node.removeMaxGo]
    show (l.inorder ++ v :: (Node.removeMaxGo rv rl rr).2.inorder)
        ++ [(Node.removeMaxGo rv rl rr).1] = _
    rw [show (HeapNode.node v l (HeapNode.node rv rl rr)).inorder =
      l.inorder ++ v :: (HeapNode.node rv rl rr).inorder from rfl]
    rw [← ihr rv rl]
    simp

theorem recursive_remove_min_node (v : T) (l r : HeapNode T) :
    Node.recursive_remove_min (.node v l r) = some (Node.removeMinGo v l r) := by
  induction l generalizing v r with
  | nil => rw [Node.recursive_remove_min, Node.removeMinGo]
  | node lv ll lr ihl ihr =>
    rw [Node.recursive_remove_min, ihl lv lr, Node.removeMinGo]
    simp

theorem recursive_remove_max_node (v : T) (l r : HeapNode T) :
    Node.recursive_remove_max (.node v l r) = some (Node.removeMaxGo v l r) := by
  induction r generalizing v l with
  | nil => rw [Node.recursive_remove_max, Node.removeMaxGo]
  | node rv rl rr ihl ihr =>
    rw [Node.recursive_remove_max, ihr rv rl, Node.removeMaxGo]
    simp

theorem recursive_remove_min_eq (h : HeapNode T) :
    Node.recursive_remove_min h = Node.iterative_remove_min h := by
  cases h with
  | nil => rfl
  | node v l r => rw [recursive_remove_min_node, Node.iterative_remove_min]

theorem recursive_remove_max_eq (h : HeapNode T) :
    Node.recursive_remove_max h = Node.iterative_remove_max h := by
  cases h with
  | nil => rfl
  | node v l r => rw [recursive_remove_max_node, Node.iterative_remove_max]

/-! ### remove: success signal, effect on the value sequence, invariant -/

theorem iterative_remove_error_iff (h : HeapNode T) (v : T) :
    Node.iterative_remove h v = .error () ↔
      Node.iterative_contains h v = false := by
  induction h with
  | nil => simp [Node.iterative_remove, Node.iterative_contains]
  | node cv cl cr ihl ihr =>
    rw [Node.iterative_remove, Node.iterative_contains]
    cases hc : cmp v cv
    · simp [exceptMap_eq_error, ihl]
    · simp
    · simp [exceptMap_eq_error, ihr]

theorem iterative_remove_ok_contains (h : HeapNode T) (v : T) (h2 : HeapNode T)
    (hok : Node.iterative_remove h v = .ok h2) :
    Node.iterative_contains h v = true := by
  cases hcon : Node.iterative_contains h v with
  | true => rfl
  | false =>
    have herr := (iterative_remove_error_iff h v).mpr hcon
    rw [herr] at hok
    exact absurd hok (by simp)

theorem iterative_remove_matched_inorder (cl cr : HeapNode T) :
    (Node.iterative_remove_matched cl cr).inorder = cl.inorder ++ cr.inorder := by
  cases cl with
  | nil =>
    cases cr <;> simp [Node.iterative_remove_matched, HeapNode.inorder]
  | node lv ll lr =>
    cases cr with
    | nil => simp [Node.iterative_remove_matched, HeapNode.inorder]
    | node rv rl rr =>
      show (HeapNode.node lv ll lr).inorder ++
          (Node.removeMinGo rv rl rr).1 :: (Node.removeMinGo rv rl rr).2.inorder = _
      rw [removeMinGo_spec]

theorem iterative_remove_ok_inorder (h : HeapNode T) (v : T) (h2 : HeapNode T)
    (hinv : BSTInv h) (hok : Node.iterative_remove h v = .ok h2) :
    h2.inorder = h.inorder.erase v := by
  induction h generalizing h2 with
  | nil => simp [Node.iterative_remove] at hok
  | node cv cl cr ihl ihr =>
    obtain ⟨hfl, hfr, hil, hir⟩ := hinv
    rw [forall_iff_mem_inorder] at hfl hfr
    rw [Node.iterative_remove] at hok
    cases hc : cmp v cv
    · rw [hc] at hok
      rw [exceptMap_eq_ok] at hok
      obtain ⟨cl2, hcl2, rfl⟩ := hok
      have hmem := (iterative_contains_iff_mem cl v hil).mp
        (iterative_remove_ok_contains cl v cl2 hcl2)
      show cl2.inorder ++ cv :: cr.inorder = _
      rw [ihl cl2 hil hcl2,
        show (HeapNode.node cv cl cr).inorder = cl.inorder ++ cv :: cr.inorder from rfl,
        List.erase_append_left _ hmem]
    · have hveq := cmp_eq_eq.mp hc
      subst hveq
      have hvnotl : v ∉ cl.inorder := fun hmem =>
        absurd (cmp_eq_lt.mp (hfl v hmem)) (lt_irrefl v)
      rw [hc] at hok
      simp only [Except.ok.injEq] at hok
      subst hok
      rw [iterative_remove_matched_inorder,
        show (HeapNode.node v cl cr).inorder = cl.inorder ++ v :: cr.inorder from rfl,
        List.erase_append_right _ hvnotl, List.erase_cons_head]
    · rw [hc] at hok
      rw [exceptMap_eq_ok] at hok
      obtain ⟨cr2, hcr2, rfl⟩ := hok
      have hvnotl : v ∉ cl.inorder := fun hmem =>
        absurd (lt_trans (cmp_eq_lt.mp (hfl v hmem)) (cmp_eq_gt.mp hc)) (lt_irrefl v)
      have hvne : v ≠ cv := by
        intro heq
        rw [heq] at hc
        exact absurd (cmp_eq_gt.mp hc) (lt_irrefl cv)
      show cl.inorder ++ cv :: cr2.inorder = _
      rw [ihr cr2 hir hcr2,
        show (HeapNode.node cv cl cr).inorder = cl.inorder ++ cv :: cr.inorder from rfl,
        List.erase_append_right _ hvnotl,
        List.erase_cons_tail (by simp [Ne.symm hvne])]

/-! ### The two engines compute the same node-level functions -/

theorem recursive_insert_eq (sv : T) (sl sr : HeapNode T) (value : T) :
    Node.recursive_insert sv sl sr value =
      Node.iterative_insert (.node sv sl sr) value := by
  induction sv, sl, sr, value using Node.recursive_insert.induct with
  | case1 sv sl sr value hc =>
    cases sl <;> cases sr <;>
      simp [Node.recursive_insert, Node.iterative_insert, hc]
  | case2 sv sr value hc =>
    cases sr <;>
      simp [Node.recursive_insert, Node.iterative_insert, hc, Except.map]
  | case3 sv sr value hc lv ll lr ih =>
    cases sr <;>
      simp [Node.recursive_insert, Node.iterative_insert, hc, ih]
  | case4 sv sl value hc =>
    cases sl <;>
      simp [Node.recursive_insert, Node.iterative_insert, hc, Except.map]
  | case5 sv sl value hc rv rl rr ih =>
    cases sl <;>
      simp [Node.recursive_insert, Node.iterative_insert, hc, ih]

theorem recursive_contains_eq (sv : T) (sl sr : HeapNode T) (value : T) :
    Node.recursive_contains sv sl sr value =
      Node.iterative_contains (.node sv sl sr) value := by
  induction sv, sl, sr, value using Node.recursive_contains.induct with
  | case1 sv sl sr value hc =>
    cases sl <;> cases sr <;>
      simp [Node.recursive_contains, Node.iterative_contains, hc]
  | case2 sv sr value hc =>
    cases sr <;>
      simp [Node.recursive_contains, Node.iterative_contains, hc]
  | case3 sv sr value hc lv ll lr ih =>
    cases sr <;>
      simp [Node.recursive_contains, Node.iterative_contains, hc, ih]
  | case4 sv sl value hc =>
    cases sl <;>
      simp [Node.recursive_contains, Node.iterative_contains, hc]
  | case5 sv sl value hc rv rl rr ih =>
    cases sl <;>
      simp [Node.recursive_contains, Node.iterative_contains, hc, ih]

theorem recursive_min_eq (v : T) (l r : HeapNode T) :
    Node.recursive_min v l = Node.iterative_min (.node v l r) := by
  induction l generalizing v r with
  | nil => rfl
  | node lv ll lr ihl ihr =>
    rw [Node.recursive_min, Node.iterative_min]
    exact ihl lv lr

theorem recursive_max_eq (v : T) (l r : HeapNode T) :
    Node.recursive_max v r = Node.iterative_max (.node v l r) := by
  induction r generalizing v l with
  | nil => rfl
  | node rv rl rr ihl ihr =>
    rw [Node.recursive_max, Node.iterative_max]
    exact ihr rv rl

theorem remove_matched_eq (nl nr : HeapNode T) :
    Node.recursive_remove_matched nl nr = Node.iterative_remove_matched nl nr := by
  cases nl <;> cases nr <;> rfl

theorem recursive_remove_eq (h : HeapNode T) (value : T) :
    Node.recursive_remove h value = Node.iterative_remove h value := by
  induction h, value using Node.recursive_remove.induct with
  | case1 value => rfl
  | case2 nv nl nr value hc ih =>
    rw [Node.recursive_remove, Node.iterative_remove, hc, ih]
  | case3 nv nl nr value hc ih =>
    rw [Node.recursive_remove, Node.iterative_remove, hc, ih]
  | case4 nv nl nr value hc =>
    rw [Node.recursive_remove, Node.iterative_remove, hc, remove_matched_eq]

/-! ### Engine agreement at the tree level -/



theorem insert_engines_eq (t : RecursiveBST T) (v : T) :
    (t.insert v).toIterative = t.toIterative.insert v := by
  obtain ⟨root, size⟩ := t
  cases root with
  | nil =>
    simp [RecursiveBST.insert, IterativeBST.insert, RecursiveBST.toIterative,
      Node.iterative_insert]
  | node nv nl nr =>
    rw [RecursiveBST.insert]
    show _ = IterativeBST.insert ⟨HeapNode.node nv nl nr, size⟩ v
    rw [IterativeBST.insert]
    simp only [recursive_insert_eq]
    cases Node.iterative_insert (HeapNode.node nv nl nr) v <;>
      simp [RecursiveBST.toIterative]

theorem contains_engines_eq (t : RecursiveBST T) (v : T) :
    t.contains v = t.toIterative.contains v := by
  obtain ⟨root, size⟩ := t
  cases root with
  | nil => rfl
  | node nv nl nr =>
    show Node.recursive_contains nv nl nr v = _
    rw [recursive_contains_eq]
    rfl

theorem remove_engines_eq (t : RecursiveBST T) (v : T) :
    (t.remove v).toIterative = t.toIterative.remove v := by
  obtain ⟨root, size⟩ := t
  rw [RecursiveBST.remove]
  show _ = IterativeBST.remove ⟨root, size⟩ v
  rw [IterativeBST.remove]
  simp only [recursive_remove_eq]
  cases Node.iterative_remove root v <;> simp [RecursiveBST.toIterative]

theorem remove_min_engines_eq (t : RecursiveBST T) :
    t.remove_min.1 = t.toIterative.remove_min.1 ∧
      t.remove_min.2.toIterative = t.toIterative.remove_min.2 := by
  obtain ⟨root, size⟩ := t
  have hiter : RecursiveBST.toIterative ⟨root, size⟩ = ⟨root, size⟩ := rfl
  rw [RecursiveBST.remove_min, hiter, IterativeBST.remove_min,
    recursive_remove_min_eq]
  cases hrm : Node.iterative_remove_min root <;>
    simp [RecursiveBST.toIterative]

theorem remove_max_engines_eq (t : RecursiveBST T) :
    t.remove_max.1 = t.toIterative.remove_max.1 ∧
      t.remove_max.2.toIterative = t.toIterative.remove_max.2 := by
  obtain ⟨root, size⟩ := t
  have hiter : RecursiveBST.toIterative ⟨root, size⟩ = ⟨root, size⟩ := rfl
  rw [RecursiveBST.remove_max, hiter, IterativeBST.remove_max,
    recursive_remove_max_eq]
  cases hrm : Node.iterative_remove_max root <;>
    simp [RecursiveBST.toIterative]

theorem min_engines_eq (t : RecursiveBST T) : t.min = t.toIterative.min := by
  obtain ⟨root, size⟩ := t
  cases root with
  | nil => rfl
  | node nv nl nr =>
    show Node.recursive_min nv nl = _
    rw [recursive_min_eq nv nl nr]
    rfl

theorem max_engines_eq (t : RecursiveBST T) : t.max = t.toIterative.max := by
  obtain ⟨root, size⟩ := t
  cases root with
  | nil => rfl
  | node nv nl nr =>
    show Node.recursive_max nv nr = _
    rw [recursive_max_eq nv nl nr]
    rfl

theorem height_engines_eq (t : RecursiveBST T) : t.height = t.toIterative.height := by
  obtain ⟨root, size⟩ := t
  cases root with
  | nil => rfl
  | node nv nl nr =>
    show some (Node.recursive_height (HeapNode.node nv nl nr)) = _
    rw [show (RecursiveBST.toIterative ⟨HeapNode.node nv nl nr, size⟩).height
      = some (Node.iterative_height nv nl nr) from rfl]
    rw [iterative_height_eq]

theorem applyOp_engines_eq (t : RecursiveBST T) (op : Op T) :
    (t.applyOp op).toIterative = t.toIterative.applyOp op := by
  cases op with
  | insert v => exact insert_engines_eq t v
  | remove v => exact remove_engines_eq t v
  | removeMin => exact (remove_min_engines_eq t).2
  | removeMax => exact (remove_max_engines_eq t).2

theorem ofOps_engines_eq (ops : List (Op T)) :
    (RecursiveBST.ofOps ops).toIterative = IterativeBST.ofOps ops := by
  rw [RecursiveBST.ofOps, IterativeBST.ofOps]
  have key : ∀ (l : List (Op T)) (tR : RecursiveBST T),
      (l.foldl RecursiveBST.applyOp tR).toIterative =
        l.foldl IterativeBST.applyOp tR.toIterative := by
    intro l
    induction l with
    | nil => intro tR; rfl
    | cons op rest ih =>
      intro tR
      rw [List.foldl_cons, List.foldl_cons, ih, applyOp_engines_eq]
  exact key ops RecursiveBST.new

theorem ofOps_root_eq (ops : List (Op T)) :
    (RecursiveBST.ofOps ops).root = (IterativeBST.ofOps ops).root := by
  rw [← ofOps_engines_eq]
  rfl

theorem ofOps_size_eq (ops : List (Op T)) :
    (RecursiveBST.ofOps ops).size = (IterativeBST.ofOps ops).size := by
  rw [← ofOps_engines_eq]
  rfl

/-! ### The reachable-state invariant: ordered graph, accurate size -/



theorem insert_Inv [LinearOrder T] (t : IterativeBST T) (v : T) (h : t.Inv) :
    (t.insert v).Inv := by
  obtain ⟨hb, hs⟩ := h
  rw [IterativeBST.insert]
  cases hok : Node.iterative_insert t.root v with
  | error e => exact ⟨hb, hs⟩
  | ok root2 =>
    refine ⟨insert_BSTInv _ _ _ hb hok, ?_⟩
    show t.size + 1 = root2.count
    have hperm := iterative_insert_ok_perm _ _ _ hok
    rw [count_eq_length_inorder, hperm.length_eq, List.length_cons,
      ← count_eq_length_inorder, hs]

theorem remove_Inv [LinearOrder T] (t : IterativeBST T) (v : T) (h : t.Inv) :
    (t.remove v).Inv := by
  obtain ⟨hb, hs⟩ := h
  rw [IterativeBST.remove]
  cases hok : Node.iterative_remove t.root v with
  | error e => exact ⟨hb, hs⟩
  | ok root2 =>
    have hin := iterative_remove_ok_inorder _ _ _ hb hok
    have hmem := (iterative_contains_iff_mem t.root v hb).mp
      (iterative_remove_ok_contains _ _ _ hok)
    constructor
    · rw [bstInv_iff_sorted, hin]
      exact ((bstInv_iff_sorted t.root).mp hb).sublist (List.erase_sublist v _)
    · show t.size - 1 = root2.count
      rw [count_eq_length_inorder, hin, List.length_erase_of_mem hmem,
        ← count_eq_length_inorder, hs]

theorem remove_min_Inv [LinearOrder T] (t : IterativeBST T) (h : t.Inv) :
    t.remove_min.2.Inv := by
  obtain ⟨hb, hs⟩ := h
  rw [IterativeBST.remove_min]
  cases t with
  | mk root size =>
    cases root with
    | nil => exact ⟨hb, hs⟩
    | node v l r =>
      rw [Node.iterative_remove_min]
      have hspec := removeMinGo_spec v l r
      have hsorted := (bstInv_iff_sorted _).mp hb
      constructor
      · rw [bstInv_iff_sorted]
        have : ((Node.removeMinGo v l r).1 ::
            (Node.removeMinGo v l r).2.inorder).Sorted (· < ·) := by
          rw [hspec]; exact hsorted
        exact this.of_cons
      · show size - 1 = (Node.removeMinGo v l r).2.count
        have hlen : (Node.removeMinGo v l r).2.inorder.length + 1 =
            (HeapNode.node v l r).inorder.length := by
          rw [← hspec]; simp
        rw [count_eq_length_inorder]
        have hc := hs
        rw [count_eq_length_inorder] at hc
        have hc2 : size = (HeapNode.node v l r).inorder.length := hc
        omega

theorem remove_max_Inv [LinearOrder T] (t : IterativeBST T) (h : t.Inv) :
    t.remove_max.2.Inv := by
  obtain ⟨hb, hs⟩ := h
  rw [IterativeBST.remove_max]
  cases t with
  | mk root size =>
    cases root with
    | nil => exact ⟨hb, hs⟩
    | node v l r =>
      rw [Node.iterative_remove_max]
      have hspec := removeMaxGo_spec v l r
      have hsorted := (bstInv_iff_sorted _).mp hb
      constructor
      · rw [bstInv_iff_sorted]
        have hsub : (Node.removeMaxGo v l r).2.inorder.Sublist
            ((Node.removeMaxGo v l r).2.inorder ++ [(Node.removeMaxGo v l r).1]) :=
          List.sublist_append_left _ _
        rw [hspec] at hsub
        exact hsorted.sublist hsub
      · show size - 1 = (Node.removeMaxGo v l r).2.count
        have hlen : (Node.removeMaxGo v l r).2.inorder.length + 1 =
            (HeapNode.node v l r).inorder.length := by
          rw [← hspec]; simp
        rw [count_eq_length_inorder]
        have hc := hs
        rw [count_eq_length_inorder] at hc
        have hc2 : size = (HeapNode.node v l r).inorder.length := hc
        omega

theorem applyOp_Inv [LinearOrder T] (t : IterativeBST T) (op : Op T) (h : t.Inv) :
    (t.applyOp op).Inv := by
  cases op with
  | insert v => exact insert_Inv t v h
  | remove v => exact remove_Inv t v h
  | removeMin => exact remove_min_Inv t h
  | removeMax => exact remove_max_Inv t h

theorem new_Inv : (IterativeBST.new (T := T)).Inv := by
  exact ⟨trivial, rfl⟩

theorem ofOps_Inv [LinearOrder T] (ops : List (Op T)) :
    (IterativeBST.ofOps ops).Inv := by
  rw [IterativeBST.ofOps]
  have key : ∀ (l : List (Op T)) (t : IterativeBST T), t.Inv →
      (l.foldl IterativeBST.applyOp t).Inv := by
    intro l
    induction l with
    | nil => exact fun t h => h
    | cons op rest ih =>
      intro t h
      exact ih _ (applyOp_Inv t op h)
  exact key ops IterativeBST.new new_Inv

/-! ### Tree-level traversals against the order specifications -/

theorem iter_pre_order_vec_spec (t : IterativeBST T) :
    t.pre_order_vec = t.root.preorder :=
  iterative_pre_order_vec_eq t.root

theorem iter_in_order_vec_spec (t : IterativeBST T) :
    t.in_order_vec = t.root.inorder :=
  iterative_in_order_vec_eq t.root

theorem iter_post_order_vec_spec (t : IterativeBST T) :
    t.post_order_vec = t.root.postorder :=
  iterative_post_order_vec_eq t.root

theorem iter_level_order_vec_spec (t : IterativeBST T) :
    t.level_order_vec = t.root.levelOrder :=
  iterative_level_order_vec_eq t.root

theorem rec_pre_order_vec_spec (t : RecursiveBST T) :
    t.pre_order_vec = t.root.preorder := by
  rw [RecursiveBST.pre_order_vec, recursive_pre_order_vec_eq]
  rfl

theorem rec_in_order_vec_spec (t : RecursiveBST T) :
    t.in_order_vec = t.root.inorder := by
  rw [RecursiveBST.in_order_vec, recursive_in_order_vec_eq]
  rfl

theorem rec_post_order_vec_spec (t : RecursiveBST T) :
    t.post_order_vec = t.root.postorder := by
  rw [RecursiveBST.post_order_vec, recursive_post_order_vec_eq]
  rfl

theorem rec_level_order_vec_spec (t : RecursiveBST T) :
    t.level_order_vec = t.root.levelOrder := by
  rw [RecursiveBST.level_order_vec, recursive_level_order_vec_eq]
  rfl

theorem iter_into_pre_spec (t : IterativeBST T) :
    t.into_pre_order_iter = t.root.preorder :=
  iterative_consume_pre_order_vec_eq t.root

theorem iter_into_in_spec (t : IterativeBST T) :
    t.into_in_order_iter = t.root.inorder :=
  iterative_consume_in_order_vec_eq t.root

theorem iter_into_post_spec (t : IterativeBST T) :
    t.into_post_order_iter = t.root.postorder :=
  iterative_consume_post_order_vec_eq t.root

theorem iter_into_level_spec (t : IterativeBST T) :
    t.into_level_order_iter = t.root.levelOrder :=
  iterative_consume_level_order_vec_eq t.root

theorem rec_into_pre_spec (t : RecursiveBST T) :
    t.into_pre_order_iter = t.root.preorder := by
  rw [RecursiveBST.into_pre_order_iter, recursive_consume_pre_order_vec_eq]
  rfl

theorem rec_into_in_spec (t : RecursiveBST T) :
    t.into_in_order_iter = t.root.inorder := by
  rw [RecursiveBST.into_in_order_iter, recursive_consume_in_order_vec_eq]
  rfl

theorem rec_into_post_spec (t : RecursiveBST T) :
    t.into_post_order_iter = t.root.postorder := by
  rw [RecursiveBST.into_post_order_iter, recursive_consume_post_order_vec_eq]
  rfl

theorem rec_into_level_spec (t : RecursiveBST T) :
    t.into_level_order_iter = t.root.levelOrder := by
  rw [RecursiveBST.into_level_order_iter, recursive_consume_level_order_vec_eq]
  rfl

/-! ### Building a tree from a vector of inserts -/

theorem from_vec_engines_eq (vs : List T) :
    (RecursiveBST.from_vec vs).toIterative = IterativeBST.from_vec vs := by
  rw [RecursiveBST.from_vec, IterativeBST.from_vec]
  have key : ∀ (l : List T) (tR : RecursiveBST T),
      (l.foldl RecursiveBST.insert tR).toIterative =
        l.foldl IterativeBST.insert tR.toIterative := by
    intro l
    induction l with
    | nil => intro tR; rfl
    | cons v rest ih =>
      intro tR
      rw [List.foldl_cons, List.foldl_cons, ih, insert_engines_eq]
  exact key vs RecursiveBST.new

theorem from_vec_Inv (vs : List T) : (IterativeBST.from_vec vs).Inv := by
  rw [IterativeBST.from_vec]
  have key : ∀ (l : List T) (t : IterativeBST T), t.Inv →
      (l.foldl IterativeBST.insert t).Inv := by
    intro l
    induction l with
    | nil => exact fun t h => h
    | cons v rest ih =>
      intro t h
      exact ih _ (insert_Inv t v h)
  exact key vs IterativeBST.new new_Inv

theorem from_vec_mem (vs : List T) (x : T) :
    x ∈ (IterativeBST.from_vec vs).root.inorder ↔ x ∈ vs := by
  rw [IterativeBST.from_vec]
  have key : ∀ (l : List T) (t : IterativeBST T), t.Inv →
      (x ∈ (l.foldl IterativeBST.insert t).root.inorder ↔
        x ∈ t.root.inorder ∨ x ∈ l) := by
    intro l
    induction l with
    | nil =>
      intro t h
      simp
    | cons v rest ih =>
      intro t h
      rw [List.foldl_cons, ih (t.insert v) (insert_Inv t v h)]
      have hstep : x ∈ (t.insert v).root.inorder ↔ x = v ∨ x ∈ t.root.inorder := by
        rw [IterativeBST.insert]
        cases hok : Node.iterative_insert t.root v with
        | ok root2 =>
          have hperm := iterative_insert_ok_perm _ _ _ hok
          show x ∈ root2.inorder ↔ _
          rw [hperm.mem_iff, List.mem_cons]
        | error e =>
          show x ∈ t.root.inorder ↔ _
          have hcont : Node.iterative_contains t.root v = true := by
            cases e
            exact (iterative_insert_error_iff t.root v).mp hok
          have hvmem := (iterative_contains_iff_mem t.root v h.1).mp hcont
          constructor
          · exact fun hx => Or.inr hx
          · rintro (rfl | hx)
            · exact hvmem
            · exact hx
      rw [hstep]
      simp only [List.mem_cons]
      tauto
  rw [key vs IterativeBST.new new_Inv]
  simp [IterativeBST.new, HeapNode.inorder]

/-- A strictly sorted list with the same members as `vs` is the ascending
sorted listing of `vs`'s distinct values. -/
theorem sorted_mem_eq_finset_sort (l vs : List T)
    (hs : l.Sorted (· < ·)) (hmem : ∀ x, x ∈ l ↔ x ∈ vs) :
    l = Finset.sort (· ≤ ·) vs.toFinset := by
  apply List.eq_of_perm_of_sorted (r := fun a b => a ≤ b)
  · apply List.perm_of_nodup_nodup_toFinset_eq
    · exact hs.nodup
    · exact Finset.sort_nodup _ _
    · rw [Finset.sort_toFinset]
      ext x
      simp [List.mem_toFinset, hmem]
  · exact hs.imp le_of_lt
  · exact Finset.sort_sorted _ _



theorem iter_height_spec (t : IterativeBST T) :
    t.height =
      if t.root = .nil then none else some (Node.recursive_height t.root) := by
  unfold IterativeBST.height
  cases h2 : t.root with
  | nil => simp
  | node v l r => simp [iterative_height_eq]

theorem rec_height_spec (t : RecursiveBST T) :
    t.height =
      if t.root = .nil then none else some (Node.recursive_height t.root) := by
  unfold RecursiveBST.height
  cases h2 : t.root with
  | nil => simp
  | node v l r => simp

theorem toIterative_inj {a b : RecursiveBST T}
    (h : a.toIterative = b.toIterative) : a = b := by
  cases a
  cases b
  simp only [RecursiveBST.toIterative, IterativeBST.mk.injEq] at h
  obtain ⟨h1, h2⟩ := h
  subst h1
  subst h2
  rfl

/-! ### The claims -/

/-- C1: for every tree reachable from an empty tree by any sequence of
public operations (insert, remove, remove_min, remove_max), the BST ordering
invariant holds — for every node, every value in its left subtree compares
Less than the node's value and every value in its right subtree compares
Greater — and no two nodes hold values that compare Equal; for both
RecursiveBST and IterativeBST. -/
theorem claim_C1_reachable_bst_invariant (ops : List (Op T)) :
    BSTInv (IterativeBST.ofOps ops).root ∧
      BSTInv (RecursiveBST.ofOps ops).root ∧
      (IterativeBST.ofOps ops).root.inorder.Pairwise (fun a b => cmp a b ≠ .eq) ∧
      (RecursiveBST.ofOps ops).root.inorder.Pairwise (fun a b => cmp a b ≠ .eq) := by
  have hi := (ofOps_Inv ops).1
  have hroot := ofOps_root_eq ops
  have hpw := sorted_lt_pairwise_ne _ ((bstInv_iff_sorted _).mp hi)
  exact ⟨hi, by rw [hroot]; exact hi, hpw, by rw [hroot]; exact hpw⟩

/-- C3: for every sequence of values inserted into an initially empty tree,
in either engine, in_order_vec (and asc_order_vec, which is the same
function) is sorted non-decreasingly and equals the ascending listing of the
distinct input values. -/
theorem claim_C3_inorder_sorted_dedup (vs : List T) :
    (IterativeBST.from_vec vs).in_order_vec.Sorted (· ≤ ·) ∧
      (RecursiveBST.from_vec vs).in_order_vec.Sorted (· ≤ ·) ∧
      (IterativeBST.from_vec vs).in_order_vec =
        Finset.sort (· ≤ ·) vs.toFinset ∧
      (RecursiveBST.from_vec vs).in_order_vec =
        Finset.sort (· ≤ ·) vs.toFinset ∧
      (IterativeBST.from_vec vs).asc_order_vec =
        (IterativeBST.from_vec vs).in_order_vec ∧
      (RecursiveBST.from_vec vs).asc_order_vec =
        (RecursiveBST.from_vec vs).in_order_vec := by
  have hInv := from_vec_Inv vs
  have hsorted := (bstInv_iff_sorted _).mp hInv.1
  have heq := sorted_mem_eq_finset_sort _ vs hsorted (from_vec_mem vs)
  have hio := iter_in_order_vec_spec (IterativeBST.from_vec vs)
  have hroot : (RecursiveBST.from_vec vs).root = (IterativeBST.from_vec vs).root := by
    rw [← from_vec_engines_eq]
    rfl
  have hrio := rec_in_order_vec_spec (RecursiveBST.from_vec vs)
  refine ⟨?_, ?_, ?_, ?_, rfl, rfl⟩
  · rw [hio]
    exact hsorted.imp le_of_lt
  · rw [hrio, hroot]
    exact hsorted.imp le_of_lt
  · rw [hio, heq]
  · rw [hrio, hroot, heq]

/-- C4: removing a value sitting in a node with two children does not
structurally delete that node: remove returns Ok with the node still
present, its left subtree untouched, its value overwritten with the value
extracted by remove_min from its right subtree; that value is the head of
the right subtree's in-order sequence and (under the invariant) its
minimum.  In particular, for the tree 10/(5)/(15 with 12, 20), remove(&10)
yields in-order [5, 12, 15, 20] in both engines. -/
theorem claim_C4_two_children_removal (v lv rv : T) (ll lr rl rr : HeapNode T)
    (hinv : BSTInv (HeapNode.node v (.node lv ll lr) (.node rv rl rr))) :
    Node.iterative_remove (.node v (.node lv ll lr) (.node rv rl rr)) v =
      .ok (.node (Node.removeMinGo rv rl rr).1 (.node lv ll lr)
        (Node.removeMinGo rv rl rr).2) ∧
    Node.recursive_remove (.node v (.node lv ll lr) (.node rv rl rr)) v =
      .ok (.node (Node.removeMinGo rv rl rr).1 (.node lv ll lr)
        (Node.removeMinGo rv rl rr).2) ∧
    Node.iterative_remove_min (.node rv rl rr) = some (Node.removeMinGo rv rl rr) ∧
    (HeapNode.node rv rl rr).inorder.head? = some (Node.removeMinGo rv rl rr).1 ∧
    (∀ x ∈ (HeapNode.node rv rl rr).inorder, (Node.removeMinGo rv rl rr).1 ≤ x) ∧
    ((IterativeBST.from_vec [10, 5, 15, 12, 20]).remove 10).in_order_vec
      = ([5, 12, 15, 20] : List Int) ∧
    ((RecursiveBST.from_vec [10, 5, 15, 12, 20]).remove 10).in_order_vec
      = ([5, 12, 15, 20] : List Int) := by
  have hcv : cmp v v = Ordering.eq := cmp_eq_eq.mpr rfl
  have hsr : (HeapNode.node rv rl rr).inorder.Sorted (· < ·) :=
    (bstInv_iff_sorted _).mp hinv.2.2.2
  refine ⟨?_, ?_, rfl, ?_, ?_, ?_, ?_⟩
  · rw [Node.iterative_remove, hcv]
    rfl
  · rw [Node.recursive_remove, hcv]
    rfl
  · rw [← removeMinGo_spec rv rl rr]
    rfl
  · intro x hx
    rw [← removeMinGo_spec rv rl rr] at hx hsr
    rcases List.mem_cons.mp hx with rfl | hx2
    · exact le_refl _
    · exact le_of_lt ((List.pairwise_cons.mp hsr).1 x hx2)
  · rw [iter_in_order_vec_spec]
    decide
  · rw [rec_in_order_vec_spec]
    have h1 := remove_engines_eq (RecursiveBST.from_vec [10, 5, 15, 12, 20]) (10 : Int)
    rw [from_vec_engines_eq] at h1
    rw [show ((RecursiveBST.from_vec [10, 5, 15, 12, 20]).remove 10).root =
        ((RecursiveBST.from_vec [10, 5, 15, 12, 20]).remove (10 : Int)).toIterative.root
        from rfl, h1]
    decide

/-- C4 witness: the documented example tree with root 10 (left child 5,
right child 15 holding 12 and 20) at the theorem's inputs. -/
theorem claim_C4_witness :
    ((IterativeBST.from_vec [10, 5, 15, 12, 20]).remove 10).in_order_vec
      = ([5, 12, 15, 20] : List Int) :=
  (claim_C4_two_children_removal (10 : Int) 5 15 .nil .nil
    (.node 12 .nil .nil) (.node 20 .nil .nil) (by decide)).2.2.2.2.2.1

/-- C5: applying any identical sequence of public operations to both
engines yields trees with identical roots and sizes, identical outputs of
all four borrowing traversals, and trees that compare equal under the
PartialEq of the source (equality of ascending-order vectors). -/
theorem claim_C5_cross_engine_equivalence (ops : List (Op T)) :
    (RecursiveBST.ofOps ops).root = (IterativeBST.ofOps ops).root ∧
      (RecursiveBST.ofOps ops).size = (IterativeBST.ofOps ops).size ∧
      (RecursiveBST.ofOps ops).pre_order_vec =
        (IterativeBST.ofOps ops).pre_order_vec ∧
      (RecursiveBST.ofOps ops).in_order_vec =
        (IterativeBST.ofOps ops).in_order_vec ∧
      (RecursiveBST.ofOps ops).post_order_vec =
        (IterativeBST.ofOps ops).post_order_vec ∧
      (RecursiveBST.ofOps ops).level_order_vec =
        (IterativeBST.ofOps ops).level_order_vec ∧
      (RecursiveBST.ofOps ops).asc_order_vec =
        (IterativeBST.ofOps ops).asc_order_vec ∧
      IterativeBST.peq (RecursiveBST.ofOps ops).toIterative
        (IterativeBST.ofOps ops) := by
  have hroot := ofOps_root_eq ops
  refine ⟨hroot, ofOps_size_eq ops, ?_, ?_, ?_, ?_, ?_, ?_⟩
  · rw [rec_pre_order_vec_spec, iter_pre_order_vec_spec, hroot]
  · rw [rec_in_order_vec_spec, iter_in_order_vec_spec, hroot]
  · rw [rec_post_order_vec_spec, iter_post_order_vec_spec, hroot]
  · rw [rec_level_order_vec_spec, iter_level_order_vec_spec, hroot]
  · show Node.recursive_in_order_vec _ [] = _
    rw [recursive_in_order_vec_eq, IterativeBST.asc_order_vec,
      iter_in_order_vec_spec, hroot]
    rfl
  · show IterativeBST.asc_order_vec _ = IterativeBST.asc_order_vec _
    rw [IterativeBST.asc_order_vec, IterativeBST.asc_order_vec,
      iter_in_order_vec_spec, iter_in_order_vec_spec]
    show (RecursiveBST.ofOps ops).root.inorder = _
    rw [hroot]

/-- C6: for every tree of either engine and each of the four orderings, the
consuming traversal (into_*_order_iter) yields exactly the sequence of
values whose references the borrowing traversal yields on the same tree.
(That nothing of the node graph remains reachable afterwards is Rust's move
semantics: the consuming methods take `self` by value.) -/
theorem claim_C6_consuming_matches_borrowing (tI : IterativeBST T)
    (tR : RecursiveBST T) :
    tI.into_pre_order_iter = tI.pre_order_vec ∧
      tI.into_in_order_iter = tI.in_order_vec ∧
      tI.into_post_order_iter = tI.post_order_vec ∧
      tI.into_level_order_iter = tI.level_order_vec ∧
      tR.into_pre_order_iter = tR.pre_order_vec ∧
      tR.into_in_order_iter = tR.in_order_vec ∧
      tR.into_post_order_iter = tR.post_order_vec ∧
      tR.into_level_order_iter = tR.level_order_vec := by
  rw [iter_into_pre_spec, iter_pre_order_vec_spec,
    iter_into_in_spec, iter_in_order_vec_spec,
    iter_into_post_spec, iter_post_order_vec_spec,
    iter_into_level_spec, iter_level_order_vec_spec,
    rec_into_pre_spec, rec_pre_order_vec_spec,
    rec_into_in_spec, rec_in_order_vec_spec,
    rec_into_post_spec, rec_post_order_vec_spec,
    rec_into_level_spec, rec_level_order_vec_spec]
  exact ⟨rfl, rfl, rfl, rfl, rfl, rfl, rfl, rfl⟩

/-- C7: on the empty tree of either engine, min, max, height, remove_min
and remove_max all return None, and the remove calls leave the tree empty
with size 0. -/
theorem claim_C7_empty_tree_queries :
    (IterativeBST.new (T := T)).min = none ∧
      (IterativeBST.new (T := T)).max = none ∧
      (IterativeBST.new (T := T)).height = none ∧
      (IterativeBST.new (T := T)).remove_min = (none, IterativeBST.new) ∧
      (IterativeBST.new (T := T)).remove_max = (none, IterativeBST.new) ∧
      (IterativeBST.new (T := T)).remove_min.2.root = .nil ∧
      (IterativeBST.new (T := T)).remove_min.2.size = 0 ∧
      (RecursiveBST.new (T := T)).min = none ∧
      (RecursiveBST.new (T := T)).max = none ∧
      (RecursiveBST.new (T := T)).height = none ∧
      (RecursiveBST.new (T := T)).remove_min = (none, RecursiveBST.new) ∧
      (RecursiveBST.new (T := T)).remove_max = (none, RecursiveBST.new) ∧
      (RecursiveBST.new (T := T)).remove_min.2.root = .nil ∧
      (RecursiveBST.new (T := T)).remove_min.2.size = 0 :=
  ⟨rfl, rfl, rfl, rfl, rfl, rfl, rfl, rfl, rfl, rfl, rfl, rfl, rfl, rfl⟩

/-- C8: on every nonempty tree of either engine, height() returns Some of
the number of edges on a longest root-to-leaf path (`depth - 1`, where
`depth` counts the nodes on such a path), which equals
`1 + max(height(left), height(right))` with the empty subtree at `-1`; a
single-node tree has height Some 0, and the tree built by inserting
4, 6, 2, 7, 5, 3, 1 has height Some 2. -/
theorem claim_C8_height_edges (size1 size2 : Nat) (v : T) (l r : HeapNode T) :
    (IterativeBST.mk (.node v l r) size1).height =
      some (((HeapNode.node v l r).depth : Int) - 1) ∧
      (IterativeBST.mk (.node v l r) size1).height =
        some (1 + max (Node.recursive_height l) (Node.recursive_height r)) ∧
      (RecursiveBST.mk (.node v l r) size2).height =
        (IterativeBST.mk (.node v l r) size1).height ∧
      (IterativeBST.mk (.node v .nil .nil) 1).height = some 0 ∧
      (RecursiveBST.mk (.node v .nil .nil) 1).height = some 0 ∧
      (IterativeBST.from_vec [4, 6, 2, 7, 5, 3, 1] : IterativeBST Int).height
        = some 2 ∧
      (RecursiveBST.from_vec [4, 6, 2, 7, 5, 3, 1] : RecursiveBST Int).height
        = some 2 := by
  have hih : ∀ (sz : Nat) (l2 r2 : HeapNode T),
      (IterativeBST.mk (.node v l2 r2) sz).height =
        some (Node.recursive_height (.node v l2 r2)) := by
    intro sz l2 r2
    show some (Node.iterative_height v l2 r2) = _
    rw [iterative_height_eq]
  have hfvroot : (RecursiveBST.from_vec [4, 6, 2, 7, 5, 3, 1] : RecursiveBST Int).root =
      (IterativeBST.from_vec [4, 6, 2, 7, 5, 3, 1] : IterativeBST Int).root := by
    rw [← from_vec_engines_eq]
    rfl
  refine ⟨?_, ?_, ?_, ?_, ?_, ?_, ?_⟩
  · rw [hih, recursive_height_eq_depth]
  · rw [hih, Node.recursive_height]
  · rw [height_engines_eq]
    rfl
  · rw [hih]
    rw [show Node.recursive_height (HeapNode.node v .nil .nil) = 0 from by
      rw [recursive_height_eq_depth]
      simp [HeapNode.depth]]
  · rw [height_engines_eq]
    show (IterativeBST.mk (.node v .nil .nil) 1).height = _
    rw [hih]
    rw [show Node.recursive_height (HeapNode.node v .nil .nil) = 0 from by
      rw [recursive_height_eq_depth]
      simp [HeapNode.depth]]
  · rw [iter_height_spec]
    decide
  · rw [rec_height_spec, hfvroot]
    decide

/-! ### Size bookkeeping per operation -/

theorem size_deltas (t : IterativeBST T) (v : T) (h : t.Inv) :
    ((t.insert v).size = t.size + (if t.contains v then 0 else 1)) ∧
    ((t.insert v).root.count = t.root.count + (if t.contains v then 0 else 1)) ∧
    ((if t.contains v then t.insert v else t) = t) ∧
    ((t.remove v).size + (if t.contains v then 1 else 0) = t.size) ∧
    ((t.remove v).root.count + (if t.contains v then 1 else 0) = t.root.count) ∧
    ((if t.contains v then t else t.remove v) = t) ∧
    (t.remove_min.2.size + (if t.root = .nil then 0 else 1) = t.size) ∧
    (t.remove_min.2.root.count + (if t.root = .nil then 0 else 1) = t.root.count) ∧
    ((if t.root = .nil then t.remove_min.2 else t) = t) ∧
    (t.remove_max.2.size + (if t.root = .nil then 0 else 1) = t.size) ∧
    (t.remove_max.2.root.count + (if t.root = .nil then 0 else 1) = t.root.count) ∧
    ((if t.root = .nil then t.remove_max.2 else t) = t) := by
  obtain ⟨hb, hs⟩ := h
  have hins : (t.insert v).size = t.size + (if t.contains v then 0 else 1) ∧
      (t.insert v).root.count = t.root.count + (if t.contains v then 0 else 1) ∧
      (if t.contains v then t.insert v else t) = t := by
    rw [IterativeBST.insert, IterativeBST.contains]
    cases hok : Node.iterative_insert t.root v with
    | error e =>
      cases e
      have hcont := (iterative_insert_error_iff t.root v).mp hok
      simp [hcont]
    | ok root2 =>
      have hcont : Node.iterative_contains t.root v = false := by
        cases hcon : Node.iterative_contains t.root v with
        | false => rfl
        | true =>
          have := (iterative_insert_error_iff t.root v).mpr hcon
          rw [this] at hok
          exact absurd hok (by simp)
      have hperm := iterative_insert_ok_perm _ _ _ hok
      have hcount : root2.count = t.root.count + 1 := by
        rw [count_eq_length_inorder, hperm.length_eq, List.length_cons,
          ← count_eq_length_inorder]
      simp [hcont, hcount]
  have hrem : ((t.remove v).size + (if t.contains v then 1 else 0) = t.size) ∧
      ((t.remove v).root.count + (if t.contains v then 1 else 0) = t.root.count) ∧
      ((if t.contains v then t else t.remove v) = t) := by
    rw [IterativeBST.remove, IterativeBST.contains]
    cases hok : Node.iterative_remove t.root v with
    | error e =>
      cases e
      have hcont := (iterative_remove_error_iff t.root v).mp hok
      simp [hcont]
    | ok root2 =>
      have hcont := iterative_remove_ok_contains _ _ _ hok
      have hmem := (iterative_contains_iff_mem t.root v hb).mp hcont
      have hin := iterative_remove_ok_inorder _ _ _ hb hok
      have hcount : root2.count + 1 = t.root.count := by
        rw [count_eq_length_inorder, hin, List.length_erase_of_mem hmem,
          ← count_eq_length_inorder]
        have : 1 ≤ t.root.count := by
          rw [count_eq_length_inorder]
          exact List.length_pos.mpr (List.ne_nil_of_mem hmem)
        omega
      have hsize1 : 1 ≤ t.size := by
        rw [hs, count_eq_length_inorder]
        exact List.length_pos.mpr (List.ne_nil_of_mem hmem)
      simp only [hcont, if_true]
      refine ⟨by omega, hcount, trivial⟩
  have hrmin : (t.remove_min.2.size + (if t.root = .nil then 0 else 1) = t.size) ∧
      (t.remove_min.2.root.count + (if t.root = .nil then 0 else 1) = t.root.count) ∧
      ((if t.root = .nil then t.remove_min.2 else t) = t) := by
    rw [IterativeBST.remove_min]
    cases hroot : t.root with
    | nil => simp [Node.iterative_remove_min, hroot]
    | node rv rl rr =>
      rw [Node.iterative_remove_min]
      have hspec := removeMinGo_spec rv rl rr
      have hlen : (Node.removeMinGo rv rl rr).2.inorder.length + 1 =
          (HeapNode.node rv rl rr).inorder.length := by
        rw [← hspec]
        simp
      have hcount : (Node.removeMinGo rv rl rr).2.count + 1 =
          (HeapNode.node rv rl rr).count := by
        rw [count_eq_length_inorder, count_eq_length_inorder]
        omega
      have hsize1 : 1 ≤ t.size := by
        rw [hs, hroot]
        rw [show (HeapNode.node rv rl rr).count = 1 + rl.count + rr.count from rfl]
        omega
      simp only [hroot]
      refine ⟨by simp; omega, by simp; omega, by simp⟩
  have hrmax : (t.remove_max.2.size + (if t.root = .nil then 0 else 1) = t.size) ∧
      (t.remove_max.2.root.count + (if t.root = .nil then 0 else 1) = t.root.count) ∧
      ((if t.root = .nil then t.remove_max.2 else t) = t) := by
    rw [IterativeBST.remove_max]
    cases hroot : t.root with
    | nil => simp [Node.iterative_remove_max, hroot]
    | node rv rl rr =>
      rw [Node.iterative_remove_max]
      have hspec := removeMaxGo_spec rv rl rr
      have hlen : (Node.removeMaxGo rv rl rr).2.inorder.length + 1 =
          (HeapNode.node rv rl rr).inorder.length := by
        rw [← hspec]
        simp
      have hcount : (Node.removeMaxGo rv rl rr).2.count + 1 =
          (HeapNode.node rv rl rr).count := by
        rw [count_eq_length_inorder, count_eq_length_inorder]
        omega
      have hsize1 : 1 ≤ t.size := by
        rw [hs, hroot]
        rw [show (HeapNode.node rv rl rr).count = 1 + rl.count + rr.count from rfl]
        omega
      simp only [hroot]
      refine ⟨by simp; omega, by simp; omega, by simp⟩
  exact ⟨hins.1, hins.2.1, hins.2.2, hrem.1, hrem.2.1, hrem.2.2,
    hrmin.1, hrmin.2.1, hrmin.2.2, hrmax.1, hrmax.2.1, hrmax.2.2⟩

/-- The recursive engine obeys the same size bookkeeping, by agreement with
the iterative engine. -/
theorem size_deltas_rec (t : RecursiveBST T) (v : T) (h : t.toIterative.Inv) :
    ((t.insert v).size = t.size + (if t.contains v then 0 else 1)) ∧
    ((t.insert v).root.count = t.root.count + (if t.contains v then 0 else 1)) ∧
    ((if t.contains v then t.insert v else t) = t) ∧
    ((t.remove v).size + (if t.contains v then 1 else 0) = t.size) ∧
    ((t.remove v).root.count + (if t.contains v then 1 else 0) = t.root.count) ∧
    ((if t.contains v then t else t.remove v) = t) ∧
    (t.remove_min.2.size + (if t.root = .nil then 0 else 1) = t.size) ∧
    (t.remove_min.2.root.count + (if t.root = .nil then 0 else 1) = t.root.count) ∧
    ((if t.root = .nil then t.remove_min.2 else t) = t) ∧
    (t.remove_max.2.size + (if t.root = .nil then 0 else 1) = t.size) ∧
    (t.remove_max.2.root.count + (if t.root = .nil then 0 else 1) = t.root.count) ∧
    ((if t.root = .nil then t.remove_max.2 else t) = t) := by
  have hd := size_deltas t.toIterative v h
  have hc := contains_engines_eq t v
  have hins := insert_engines_eq t v
  have hrm := remove_engines_eq t v
  have hmin := remove_min_engines_eq t
  have hmax := remove_max_engines_eq t
  have hroot : t.toIterative.root = t.root := rfl
  have hsize : t.toIterative.size = t.size := rfl
  have hinssize : (t.insert v).size = (t.toIterative.insert v).size := by
    rw [← hins]
    rfl
  have hinscount : (t.insert v).root.count = (t.toIterative.insert v).root.count := by
    rw [← hins]
    rfl
  have hrmsize : (t.remove v).size = (t.toIterative.remove v).size := by
    rw [← hrm]
    rfl
  have hrmcount : (t.remove v).root.count = (t.toIterative.remove v).root.count := by
    rw [← hrm]
    rfl
  have hminsize : t.remove_min.2.size = t.toIterative.remove_min.2.size := by
    rw [← hmin.2]
    rfl
  have hmincount : t.remove_min.2.root.count =
      t.toIterative.remove_min.2.root.count := by
    rw [← hmin.2]
    rfl
  have hmaxsize : t.remove_max.2.size = t.toIterative.remove_max.2.size := by
    rw [← hmax.2]
    rfl
  have hmaxcount : t.remove_max.2.root.count =
      t.toIterative.remove_max.2.root.count := by
    rw [← hmax.2]
    rfl
  obtain ⟨d1, d2, d3, d4, d5, d6, d7, d8, d9, d10, d11, d12⟩ := hd
  simp only [← hc, hroot, hsize] at d1 d2 d3 d4 d5 d6 d7 d8 d9 d10 d11 d12
  refine ⟨?_, ?_, ?_, ?_, ?_, ?_, ?_, ?_, ?_, ?_, ?_, ?_⟩
  · rw [hinssize, d1]
  · rw [hinscount, d2]
  · apply toIterative_inj
    rw [apply_ite RecursiveBST.toIterative, hins, d3]
  · rw [hrmsize, ← d4]
  · rw [hrmcount, ← d5]
  · apply toIterative_inj
    rw [apply_ite RecursiveBST.toIterative, hrm, d6]
  · rw [hminsize, ← d7]
  · rw [hmincount, ← d8]
  · apply toIterative_inj
    rw [apply_ite RecursiveBST.toIterative, hmin.2, d9]
  · rw [hmaxsize, ← d10]
  · rw [hmaxcount, ← d11]
  · apply toIterative_inj
    rw [apply_ite RecursiveBST.toIterative, hmax.2, d12]

/-- C2: for every reachable tree of either engine, the size field equals
the number of nodes reachable from the root; a successful insert increments
size by exactly one, a successful removal (remove, remove_min, remove_max)
decrements it by exactly one, and a failed operation (duplicate insert,
removal of an absent value, removal from an empty tree) leaves the whole
tree record — node graph and size — unchanged. -/
theorem claim_C2_size_accounting (ops : List (Op T)) (v : T) :
    ((IterativeBST.ofOps ops).size = (IterativeBST.ofOps ops).root.count ∧
     (RecursiveBST.ofOps ops).size = (RecursiveBST.ofOps ops).root.count) ∧
    (((IterativeBST.ofOps ops).insert v).size =
        (IterativeBST.ofOps ops).size +
          (if (IterativeBST.ofOps ops).contains v then 0 else 1) ∧
     (if (IterativeBST.ofOps ops).contains v
        then (IterativeBST.ofOps ops).insert v
        else IterativeBST.ofOps ops) = IterativeBST.ofOps ops) ∧
    (((IterativeBST.ofOps ops).remove v).size +
        (if (IterativeBST.ofOps ops).contains v then 1 else 0) =
      (IterativeBST.ofOps ops).size ∧
     (if (IterativeBST.ofOps ops).contains v
        then IterativeBST.ofOps ops
        else (IterativeBST.ofOps ops).remove v) = IterativeBST.ofOps ops) ∧
    ((IterativeBST.ofOps ops).remove_min.2.size +
        (if (IterativeBST.ofOps ops).root = .nil then 0 else 1) =
      (IterativeBST.ofOps ops).size ∧
     (if (IterativeBST.ofOps ops).root = .nil
        then (IterativeBST.ofOps ops).remove_min.2
        else IterativeBST.ofOps ops) = IterativeBST.ofOps ops) ∧
    ((IterativeBST.ofOps ops).remove_max.2.size +
        (if (IterativeBST.ofOps ops).root = .nil then 0 else 1) =
      (IterativeBST.ofOps ops).size ∧
     (if (IterativeBST.ofOps ops).root = .nil
        then (IterativeBST.ofOps ops).remove_max.2
        else IterativeBST.ofOps ops) = IterativeBST.ofOps ops) ∧
    (((RecursiveBST.ofOps ops).insert v).size =
        (RecursiveBST.ofOps ops).size +
          (if (RecursiveBST.ofOps ops).contains v then 0 else 1) ∧
     (if (RecursiveBST.ofOps ops).contains v
        then (RecursiveBST.ofOps ops).insert v
        else RecursiveBST.ofOps ops) = RecursiveBST.ofOps ops) ∧
    (((RecursiveBST.ofOps ops).remove v).size +
        (if (RecursiveBST.ofOps ops).contains v then 1 else 0) =
      (RecursiveBST.ofOps ops).size ∧
     (if (RecursiveBST.ofOps ops).contains v
        then RecursiveBST.ofOps ops
        else (RecursiveBST.ofOps ops).remove v) = RecursiveBST.ofOps ops) ∧
    ((RecursiveBST.ofOps ops).remove_min.2.size +
        (if (RecursiveBST.ofOps ops).root = .nil then 0 else 1) =
      (RecursiveBST.ofOps ops).size ∧
     (if (RecursiveBST.ofOps ops).root = .nil
        then (RecursiveBST.ofOps ops).remove_min.2
        else RecursiveBST.ofOps ops) = RecursiveBST.ofOps ops) ∧
    ((RecursiveBST.ofOps ops).remove_max.2.size +
        (if (RecursiveBST.ofOps ops).root = .nil then 0 else 1) =
      (RecursiveBST.ofOps ops).size ∧
     (if (RecursiveBST.ofOps ops).root = .nil
        then (RecursiveBST.ofOps ops).remove_max.2
        else RecursiveBST.ofOps ops) = RecursiveBST.ofOps ops) := by
  have hInv := ofOps_Inv (T := T) ops
  have hd := size_deltas (IterativeBST.ofOps ops) v hInv
  have hInvR : (RecursiveBST.ofOps ops).toIterative.Inv := by
    rw [ofOps_engines_eq]
    exact hInv
  have hdR := size_deltas_rec (RecursiveBST.ofOps ops) v hInvR
  have hsizeR : (RecursiveBST.ofOps ops).size = (RecursiveBST.ofOps ops).root.count :=
    hInvR.2
  obtain ⟨d1, d2, d3, d4, d5, d6, d7, d8, d9, d10, d11, d12⟩ := hd
  obtain ⟨e1, e2, e3, e4, e5, e6, e7, e8, e9, e10, e11, e12⟩ := hdR
  exact ⟨⟨hInv.2, hsizeR⟩, ⟨d1, d3⟩, ⟨d4, d6⟩, ⟨d7, d9⟩, ⟨d10, d12⟩,
    ⟨e1, e3⟩, ⟨e4, e6⟩, ⟨e7, e9⟩, ⟨e10, e12⟩⟩

/-- C9 counterexample: the public insert returns no boolean.  The trait
method is `fn insert(&mut self, value: T)`, returning `()`: at the concrete
inputs below, the first insert of 1 succeeds and the duplicate insert of 1
fails (the internal node-level signals differ), yet the value returned to
the caller is identical in both calls — so the public return value cannot
be a boolean that is true iff the value was inserted. -/
theorem claim_C9_counterexample :
    (IterativeBST.insertReturn (IterativeBST.new (T := Int)) 1).1 =
      (IterativeBST.insertReturn (IterativeBST.insert IterativeBST.new 1) 1).1 ∧
    (Node.iterative_insert (IterativeBST.new (T := Int)).root 1).isOk = true ∧
    (Node.iterative_insert
      (IterativeBST.insert (IterativeBST.new (T := Int)) 1).root 1).isOk = false := by
  refine ⟨rfl, rfl, ?_⟩
  rfl

/-- C9 amended: the public insert returns no value (unit), for both engines;
the success signal exists internally — the node-level insert returns `Ok`
exactly when the value was not already present — and the tree uses it to
bump `size` exactly on a successful insert. -/
theorem claim_C9_insert_signal (t : IterativeBST T) (tr : RecursiveBST T) (v : T) :
    ((IterativeBST.insertReturn t v).1 = ()) ∧
    ((IterativeBST.insertReturn t v).2 = t.insert v) ∧
    ((Node.iterative_insert t.root v).isOk = !t.contains v) ∧
    ((t.insert v).size = if t.contains v then t.size else t.size + 1) ∧
    ((tr.insert v).size = if tr.contains v then tr.size else tr.size + 1) := by
  have hsig : (Node.iterative_insert t.root v).isOk = !t.contains v := by
    show _ = !Node.iterative_contains t.root v
    cases hok : Node.iterative_insert t.root v with
    | error e =>
      cases e
      rw [(iterative_insert_error_iff t.root v).mp hok]
      rfl
    | ok root2 =>
      have hcont : Node.iterative_contains t.root v = false := by
        cases hcon : Node.iterative_contains t.root v with
        | false => rfl
        | true =>
          have := (iterative_insert_error_iff t.root v).mpr hcon
          rw [this] at hok
          exact absurd hok (by simp)
      rw [hcont]
      rfl
  have hsize : (t.insert v).size = if t.contains v then t.size else t.size + 1 := by
    rw [IterativeBST.insert, IterativeBST.contains]
    cases hok : Node.iterative_insert t.root v with
    | error e =>
      cases e
      rw [(iterative_insert_error_iff t.root v).mp hok]
      rfl
    | ok root2 =>
      have hcont : Node.iterative_contains t.root v = false := by
        cases hcon : Node.iterative_contains t.root v with
        | false => rfl
        | true =>
          have := (iterative_insert_error_iff t.root v).mpr hcon
          rw [this] at hok
          exact absurd hok (by simp)
      rw [hcont]
      rfl
  have hsizeR : (tr.insert v).size = if tr.contains v then tr.size else tr.size + 1 := by
    have h1 : (tr.insert v).size = (tr.toIterative.insert v).size := by
      rw [← insert_engines_eq]
      rfl
    have h2 := contains_engines_eq tr v
    rw [h1, h2]
    have h3 : (tr.toIterative.insert v).size =
        if tr.toIterative.contains v then tr.toIterative.size
        else tr.toIterative.size + 1 := by
      rw [IterativeBST.insert, IterativeBST.contains]
      cases hok : Node.iterative_insert tr.toIterative.root v with
      | error e =>
        cases e
        rw [(iterative_insert_error_iff tr.toIterative.root v).mp hok]
        rfl
      | ok root2 =>
        have hcont : Node.iterative_contains tr.toIterative.root v = false := by
          cases hcon : Node.iterative_contains tr.toIterative.root v with
          | false => rfl
          | true =>
            have := (iterative_insert_error_iff tr.toIterative.root v).mpr hcon
            rw [this] at hok
            exact absurd hok (by simp)
        rw [hcont]
        rfl
    exact h3
  exact ⟨rfl, rfl, hsig, hsize, hsizeR⟩

/-- C10: the node-level helpers recursive_remove_min and recursive_remove_max
unconditionally unwrap their root slot, so they demand a nonempty (sub)tree
(the modelled panic is the `none` result on `nil`): on every present node
they return Some — so they agree everywhere with the `is_some`-guarded
iterative versions — and every library call site satisfies the precondition:
the public remove_min/remove_max wrappers reach the helper only behind a
nonempty root (an empty root yields (None, unchanged tree)), and the
two-children branch of remove passes a right subtree just matched as
present, on which the helper returns Some by the first conjunct.  Hence the
unwraps never panic under any sequence of public operations. -/
theorem claim_C10_unwrap_safety (v : T) (l r h : HeapNode T) (t : RecursiveBST T) :
    (Node.recursive_remove_min (.node v l r)).isSome = true ∧
    (Node.recursive_remove_max (.node v l r)).isSome = true ∧
    (Node.recursive_remove_min (.node v l r) = some (Node.removeMinGo v l r)) ∧
    (Node.recursive_remove_max (.node v l r) = some (Node.removeMaxGo v l r)) ∧
    (Node.recursive_remove_min h = Node.iterative_remove_min h) ∧
    (Node.recursive_remove_max h = Node.iterative_remove_max h) ∧
    ((t.root = .nil → t.remove_min = (none, t) ∧ t.remove_max = (none, t)) ∧
     (t.root ≠ .nil →
       t.remove_min.1.isSome = true ∧ t.remove_max.1.isSome = true)) := by
  have hmin := recursive_remove_min_node v l r
  have hmax := recursive_remove_max_node v l r
  refine ⟨by rw [hmin]; rfl, by rw [hmax]; rfl, hmin, hmax,
    recursive_remove_min_eq h, recursive_remove_max_eq h, ?_, ?_⟩
  · intro hnil
    constructor
    · rw [RecursiveBST.remove_min, hnil]
      rfl
    · rw [RecursiveBST.remove_max, hnil]
      rfl
  · intro hne
    cases hroot : t.root with
    | nil => exact absurd hroot hne
    | node nv nl nr =>
      constructor
      · rw [RecursiveBST.remove_min, hroot, recursive_remove_min_node]
        rfl
      · rw [RecursiveBST.remove_max, hroot, recursive_remove_max_node]
        rfl

end BstRs
